import Mathlib

/-
Verification of the physical-memory-map engine (u-root kexec memory map).

Source of truth: src/cmds/core/ip/tuntap_linux.go, package kexec part
(RangeType, TypedRange, MemoryMap, Insert, MemoryMapFromFDT,
memoryMapFromEFI, ToUEFIPayloadMemoryMap, memoryMapFromIOMem,
rangeFromMemblockLine, memoryMapFromMemblock).

The interval primitive (Range, Range.Minus, RangeFromInterval) and the
device-tree package (dt.Node, Walk, LookProperty, AsString, AsRegion,
NodeByName) are not part of the sampled sources; they are modelled from
the specification (sections 4.1 and 6), as marked on each definition.

Machine integers: Go uintptr, uint and uint64 are modelled as Nat; the
one place where unsigned wrap-around is observable (the end-inclusive
subtraction in ToUEFIPayloadMemoryMap) uses an explicit modulus 2^64.
-/

/-- Number of values of a 64-bit machine word. -/
def U64 : Nat := 2 ^ 64

/-- Physical address range, as in the source: start address and size.
Represents the half-open interval from start to start + size. -/
structure Range where
  start : Nat
  size : Nat
deriving DecidableEq, Repr

/-- Exclusive end address of a range (models the source method End). -/
def Range.stop (r : Range) : Nat := r.start + r.size

/-- Modelled from the spec: section 4.1 overlap test,
true iff a.start less than b.end and b.start less than a.end.
The function Range.Overlaps is not among the sampled sources. -/
def Range.overlapsP (a b : Range) : Prop :=
  a.start < b.stop ∧ b.start < a.stop

instance (a b : Range) : Decidable (Range.overlapsP a b) := by
  unfold Range.overlapsP; infer_instance

/-- Membership of an address in the half-open interval of a range. -/
def Range.memPt (x : Nat) (r : Range) : Prop :=
  r.start ≤ x ∧ x < r.stop

instance (x : Nat) (r : Range) : Decidable (Range.memPt x r) := by
  unfold Range.memPt; infer_instance

/-- Modelled from the spec: section 4.1 subtract, the portions of a not
covered by b (0, 1 or 2 pieces, disjoint case returns a unchanged,
degenerate zero-size pieces are never emitted). The function Range.Minus
is not among the sampled sources. -/
def Range.minus (a b : Range) : List Range :=
  if Range.overlapsP a b then
    (if a.start < b.start then [⟨a.start, b.start - a.start⟩] else []) ++
    (if b.stop < a.stop then [⟨b.stop, a.stop - b.stop⟩] else [])
  else [a]

/-- Modelled from the spec: section 4.1 from_inclusive_interval, adapted
to the source call shape RangeFromInterval(start, end+1): the argument is
the exclusive end, size is end minus start. Not among the sampled sources. -/
def RangeFromInterval (start stop : Nat) : Range :=
  ⟨start, stop - start⟩

/-- RangeType is a string type in the source (type RangeType string);
arbitrary labels are representable, not only the five known constants. -/
abbrev RangeType := String

/-- Known range type: System RAM. -/
def RangeRAM : RangeType := "System RAM"

/-- Known range type: Default. -/
def RangeDefault : RangeType := "Default"

/-- Known range type: ACPI Tables. -/
def RangeACPI : RangeType := "ACPI Tables"

/-- Known range type: ACPI Non-volatile Storage. -/
def RangeNVS : RangeType := "ACPI Non-volatile Storage"

/-- Known range type: Reserved. -/
def RangeReserved : RangeType := "Reserved"

/-- Range of physical memory together with its type. -/
structure TypedRange where
  range : Range
  typ : RangeType
deriving DecidableEq, Repr

/-- MemoryMap defines the layout of physical memory. -/
abbrev MemoryMap := List TypedRange

/-- Comparator used by MemoryMap.sort and the EFI adapter sort:
ascending by start address. -/
def leStart (a b : TypedRange) : Prop :=
  a.range.start ≤ b.range.start

instance : DecidableRel leStart := by
  intro a b; unfold leStart; infer_instance

instance : IsTotal TypedRange leStart :=
  ⟨fun a b => Nat.le_total a.range.start b.range.start⟩

instance : IsTrans TypedRange leStart :=
  ⟨fun _ _ _ h1 h2 => Nat.le_trans h1 h2⟩

/-- Strict version of leStart, used to identify sorted maps with
pairwise distinct start addresses. -/
def ltStart (a b : TypedRange) : Prop :=
  a.range.start < b.range.start

instance : IsAntisymm TypedRange ltStart :=
  ⟨fun _ _ h1 h2 => absurd h2 (Nat.lt_asymm h1)⟩

/-- The sort performed by MemoryMap.sort and by the EFI adapter:
sort.Slice with the less function comparing start addresses. sort.Slice
returns some permutation sorted ascending by start; we model it with the
deterministic insertion sort on the same comparator. -/
def sortByStart (m : MemoryMap) : MemoryMap :=
  List.insertionSort leStart m

/-- Insert a new TypedRange into the memory map, removing chunks of other
ranges as necessary (MemoryMap.Insert in the source): every existing entry
is replaced by the pieces of it not covered by the new range, each piece
keeping the old type, the new entry is appended, and the result sorted. -/
def MemoryMap.Insert (m : MemoryMap) (r : TypedRange) : MemoryMap :=
  sortByStart
    ((m.flatMap fun q => (q.range.minus r.range).map fun r2 => ⟨r2, q.typ⟩)
      ++ [r])

/-- The carving step of Insert: the pieces of entry q left after removing
the footprint of r, keeping q's type. -/
def carve (r : TypedRange) (q : TypedRange) : List TypedRange :=
  (q.range.minus r.range).map fun r2 => ⟨r2, q.typ⟩

/-- Non-overlap of two typed ranges (the map invariant relation). -/
def nonOverlap (a b : TypedRange) : Prop :=
  ¬ Range.overlapsP a.range b.range

instance (a b : TypedRange) : Decidable (nonOverlap a b) := by
  unfold nonOverlap; infer_instance

-- A few sanity examples for the interval primitive (spec section 4.1).
example : Range.minus ⟨0, 16⟩ ⟨4, 4⟩ = [⟨0, 4⟩, ⟨8, 8⟩] := by decide
example : Range.minus ⟨0, 16⟩ ⟨0, 32⟩ = [] := by decide
example : Range.minus ⟨0, 16⟩ ⟨32, 4⟩ = [⟨0, 16⟩] := by decide
example : Range.minus ⟨8, 8⟩ ⟨0, 12⟩ = [⟨12, 4⟩] := by decide
example : RangeFromInterval 100 200 = ⟨100, 100⟩ := by decide
example : MemoryMap.Insert [⟨⟨0, 16⟩, RangeRAM⟩] ⟨⟨4, 4⟩, RangeReserved⟩ =
    [⟨⟨0, 4⟩, RangeRAM⟩, ⟨⟨4, 4⟩, RangeReserved⟩, ⟨⟨8, 8⟩, RangeRAM⟩] := by
  decide

/-
String utilities modelling the Go standard library functions used by the
text adapters: strings.Split, strings.TrimSpace, strings.CutPrefix and
strconv.ParseUint (bases 16 and 0). They operate on lists of characters;
the adapters convert with String.data.
-/

/-- Whitespace predicate of strings.TrimSpace, restricted to the ASCII
space characters (space, tab, newline, vertical tab, form feed, carriage
return); the inputs of this program are ASCII. -/
def isSpaceB (c : Char) : Bool :=
  c = ' ' || c = '\t' || c = '\n' || c = (Char.ofNat 11) ||
  c = (Char.ofNat 12) || c = '\r'

/-- Models strings.TrimSpace: remove leading and trailing whitespace. -/
def trimSpace (s : List Char) : List Char :=
  ((s.dropWhile isSpaceB).reverse.dropWhile isSpaceB).reverse

/-- Models strings.Split with a one-character separator: the substrings
between consecutive separators; n separators yield n+1 pieces. -/
def splitChar (sep : Char) : List Char → List (List Char)
  | [] => [[]]
  | c :: cs =>
    match splitChar sep cs with
    | [] => [[]]
    | h :: t => if c = sep then [] :: h :: t else (c :: h) :: t

/-- Models strings.Split with the two-character separator of the memblock
format (two dots), leftmost-first non-overlapping matches. -/
def splitDots : List Char → List (List Char)
  | [] => [[]]
  | '.' :: '.' :: rest =>
    match splitDots rest with
    | [] => [[]]
    | t => [] :: t
  | c :: rest =>
    match splitDots rest with
    | [] => [[]]
    | h :: t => (c :: h) :: t

/-- Models strings.CutPrefix(s, "0x"): the string without the prefix when
present, otherwise unchanged (only the string component is used). -/
def cutPrefix0x : List Char → List Char
  | '0' :: 'x' :: rest => rest
  | s => s

/-- Digit value of a character as in strconv: decimal digits, then lower
and upper case letters from value 10 on; none for any other character. -/
def digitVal (c : Char) : Option Nat :=
  if '0' ≤ c ∧ c ≤ '9' then some (c.toNat - '0'.toNat)
  else if 'a' ≤ c ∧ c ≤ 'z' then some (c.toNat - 'a'.toNat + 10)
  else if 'A' ≤ c ∧ c ≤ 'Z' then some (c.toNat - 'A'.toNat + 10)
  else none

/-- Digit-accumulation loop of strconv.ParseUint with bitSize 64: fails on
a non-digit, a digit not below the base, or a value not below 2^64. When
allowUS is true (base was detected, i.e. base-0 parse) underscores are
skipped here; their placement was already checked by underscoreOK. -/
def parseDigits (base : Nat) (allowUS : Bool) : List Char → Nat → Option Nat
  | [], n => some n
  | c :: cs, n =>
    if allowUS ∧ c = '_' then parseDigits base allowUS cs n
    else
      match digitVal c with
      | none => none
      | some d =>
        if base ≤ d then none
        else if U64 ≤ n * base + d then none
        else parseDigits base allowUS cs (n * base + d)

/-- Models strconv.ParseUint(s, 16, 64): hexadecimal, no prefix, no
underscores, empty string fails. -/
def parseHex (s : List Char) : Option Nat :=
  if s = [] then none else parseDigits 16 false s 0

/-- Hexadecimal letter predicate of strconv's underscoreOK. -/
def isHexLetter (c : Char) : Bool :=
  ('a' ≤ c && c ≤ 'f') || ('A' ≤ c && c ≤ 'F')

/-- Loop of strconv's underscoreOK: saw is the kind of the previously seen
character, one of caret (start or base prefix), digit, underscore, other. -/
def underscoreOKAux (hex : Bool) : Char → List Char → Bool
  | saw, [] => saw ≠ '_'
  | saw, c :: cs =>
    if ('0' ≤ c && c ≤ '9') || (hex && isHexLetter c) then
      underscoreOKAux hex '0' cs
    else if c = '_' then
      if saw = '0' then underscoreOKAux hex '_' cs else false
    else if saw = '_' then false
    else underscoreOKAux hex '!' cs

/-- Models strconv's underscoreOK: underscores may appear only between a
base prefix and a digit or between two digits. A sign is not possible here
since ParseUint rejects signs before this check is relevant. -/
def underscoreOK (s : List Char) : Bool :=
  match s with
  | '0' :: c :: rest =>
    if c = 'b' ∨ c = 'B' ∨ c = 'o' ∨ c = 'O' ∨ c = 'x' ∨ c = 'X' then
      underscoreOKAux (c = 'x' ∨ c = 'X') '0' rest
    else underscoreOKAux false '^' ('0' :: c :: rest)
  | s' => underscoreOKAux false '^' s'

/-- Models strconv.ParseUint(s, 0, 64): base detected from the prefix
(0b, 0o, 0x, leading 0 for octal, else decimal), underscores allowed as
checked by underscoreOK, value below 2^64. -/
def parseUint0 (s : List Char) : Option Nat :=
  match s with
  | [] => none
  | _ =>
    if underscoreOK s then
      match s with
      | '0' :: c :: rest =>
        if (c = 'b' ∨ c = 'B') ∧ rest ≠ [] then parseDigits 2 true rest 0
        else if (c = 'o' ∨ c = 'O') ∧ rest ≠ [] then parseDigits 8 true rest 0
        else if (c = 'x' ∨ c = 'X') ∧ rest ≠ [] then parseDigits 16 true rest 0
        else parseDigits 8 true (c :: rest) 0
      | ['0'] => some 0
      | s' => parseDigits 10 true s' 0
    else none

example : parseHex "1ff".data = some 511 := by decide
example : parseHex "".data = none := by decide
example : parseHex "0x1f".data = none := by decide
example : parseUint0 "0x1ff".data = some 511 := by decide
example : parseUint0 "0".data = some 0 := by decide
example : parseUint0 "256".data = some 256 := by decide
example : parseUint0 "010".data = some 8 := by decide
example : parseUint0 "08".data = none := by decide
example : parseUint0 "1_0".data = some 10 := by decide
example : parseUint0 "_10".data = none := by decide
example : trimSpace "  a b ".data = "a b".data := by decide
example : splitChar ':' "a:b:c".data = ["a".data, "b".data, "c".data] := by
  decide
example : splitDots "0x1..0x2".data = ["0x1".data, "0x2".data] := by decide

/-
Kernel resource-list (iomem) text adapter and memblock text adapter.
The line-oriented collaborators are modelled as lists of lines.
-/

/-- Maps a label string to a range type (rangeType in the source): the
label "reserved" becomes Reserved, every other label is used verbatim. -/
def rangeType (s : String) : RangeType :=
  if s = "reserved" then RangeReserved else s

/-- Per-line logic of memoryMapFromIOMem: split on the colon into exactly
two fields, the trimmed second field is the label, the trimmed first field
split on the dash into exactly two hexadecimal addresses with inclusive
end; a line with start equal to end encodes an empty range and is skipped,
as is any malformed line. -/
def iomemLineEntry (line : String) : Option TypedRange :=
  match splitChar ':' line.data with
  | [f0, f1] =>
    let typ := trimSpace f1
    match splitChar '-' (trimSpace f0) with
    | [a0, a1] =>
      match parseHex a0 with
      | none => none
      | some start =>
        match parseHex a1 with
        | none => none
        | some stop =>
          if start = stop then none
          else some ⟨RangeFromInterval start (stop + 1),
                     rangeType (String.mk typ)⟩
    | _ => none
  | _ => none

/-- One scanner iteration of memoryMapFromIOMem: a well-formed line is
inserted into the map, any other line leaves the map unchanged. -/
def iomemStep (mm : MemoryMap) (line : String) : MemoryMap :=
  match iomemLineEntry line with
  | none => mm
  | some e => mm.Insert e

/-- Models memoryMapFromIOMem: fold the per-line insertions over the lines
of the stream in file order, starting from the empty map. -/
def memoryMapFromIOMem (lines : List String) : MemoryMap :=
  lines.foldl iomemStep []

/-- Models rangeFromMemblockLine: split on the colon into exactly two
fields, split the trimmed second field on two dots into exactly two
addresses, strip an optional 0x prefix from each, parse as hexadecimal
with inclusive end; start equal to end encodes an empty range. -/
def rangeFromMemblockLine (s : String) : Option Range :=
  match splitChar ':' s.data with
  | [_, f1] =>
    match splitDots (trimSpace f1) with
    | [a0, a1] =>
      match parseHex (cutPrefix0x a0) with
      | none => none
      | some start =>
        match parseHex (cutPrefix0x a1) with
        | none => none
        | some stop =>
          if start = stop then none
          else some (RangeFromInterval start (stop + 1))
    | _ => none
  | _ => none

/-- One scanner iteration of memoryMapFromMemblock over either stream:
a well-formed line is inserted with the stream's type. -/
def memblockStep (typ : RangeType) (mm : MemoryMap) (line : String) :
    MemoryMap :=
  match rangeFromMemblockLine line with
  | none => mm
  | some r => mm.Insert ⟨r, typ⟩

/-- Models memoryMapFromMemblock: all memory-stream lines inserted as RAM,
then all reserved-stream lines inserted as Reserved. -/
def memoryMapFromMemblock (memory reserved : List String) : MemoryMap :=
  reserved.foldl (memblockStep RangeReserved)
    (memory.foldl (memblockStep RangeRAM) [])

example : iomemLineEntry "1000-2000 : System RAM" =
    some ⟨⟨0x1000, 0x1001⟩, RangeRAM⟩ := by decide
example : iomemLineEntry "1000-1000 : Empty" = none := by decide
example : rangeFromMemblockLine "   0: 0x0000000000001000..0x0000000000001fff" =
    some ⟨0x1000, 0x1000⟩ := by decide

/-
Output projector: UEFI payload memory map.
-/

/-- Memory map entry for a LinuxBoot UEFI payload: start address,
inclusive end address and numeric type code (uint32 in the source). -/
structure UEFIPayloadMemoryMapEntry where
  start : Nat
  stop : Nat
  typ : Nat
deriving DecidableEq, Repr

/-- Fixed table rangeTypeToUEFIPayloadMemType from the source. -/
def rangeTypeToUEFIPayloadMemType (rt : RangeType) : Option Nat :=
  if rt = RangeRAM then some 1
  else if rt = RangeDefault then some 2
  else if rt = RangeACPI then some 3
  else if rt = RangeNVS then some 4
  else if rt = RangeReserved then some 5
  else none

/-- Models convertToUEFIPayloadMemType: table lookup, defaulting to the
Reserved code 5 when the range type is not recognized. -/
def convertToUEFIPayloadMemType (rt : RangeType) : Nat :=
  match rangeTypeToUEFIPayloadMemType rt with
  | none => 5
  | some mt => mt

/-- Models ToUEFIPayloadMemoryMap: one output entry per map entry in map
order; the inclusive end is start plus size minus one computed in 64-bit
unsigned arithmetic (hence the explicit modulus). -/
def ToUEFIPayloadMemoryMap (m : MemoryMap) : List UEFIPayloadMemoryMapEntry :=
  m.map fun e =>
    ⟨e.range.start % U64,
     (e.range.start % U64 + e.range.size % U64 + (U64 - 1)) % U64,
     convertToUEFIPayloadMemType e.typ⟩

example : ToUEFIPayloadMemoryMap [⟨⟨0x4000, 0x1000⟩, RangeACPI⟩] =
    [⟨0x4000, 0x4FFF, 3⟩] := by decide

/-
Firmware (EFI) sysfs adapter. The sysfs collaborator presents one
directory per memory-map entry with the three attribute files start, end
and type; the recursive file enumeration is modelled as the list of
(directory, attribute-file name, file contents) triples in presentation
order (path.Dir and path.Base of the walked file name yield the first two
components; directories themselves are skipped by the walker).
-/

/-- Lookup table sysfsToRangeType from the source. -/
def sysfsToRangeType (s : String) : Option RangeType :=
  if s = "System RAM" then some RangeRAM
  else if s = "Default" then some RangeDefault
  else if s = "ACPI Tables" then some RangeACPI
  else if s = "ACPI Non-volatile Storage" then some RangeNVS
  else if s = "Reserved" then some RangeReserved
  else if s = "reserved" then some RangeReserved
  else none

/-- Per-directory accumulator of memoryMapFromEFI (memRange in the
source): inclusive start and end addresses and the type label; the Go
zero value has both addresses 0 and the empty type string. -/
structure EFIMemRange where
  start : Nat
  stop : Nat
  typ : RangeType
deriving DecidableEq, Repr

/-- Walker state of memoryMapFromEFI: the per-directory accumulators (a
Go map with zero-value default), the set of directories seen so far (Go
map keys; iteration order of a Go map is unspecified, the model keeps
first-insertion order as one admissible order), and the warnings logged
for unrecognized type labels as (directory, label) pairs. -/
structure EFIState where
  ranges : String → EFIMemRange
  keys : List String
  warnings : List (String × String)

/-- Pointwise update of the per-directory accumulator map. -/
def updRanges (f : String → EFIMemRange) (k : String) (v : EFIMemRange) :
    String → EFIMemRange :=
  fun k' => if k' = k then v else f k'

/-- One walker step of memoryMapFromEFI on a file triple: an unexpected
attribute-file name is a fatal error; the trimmed contents of a type file
are resolved through sysfsToRangeType, defaulting to Reserved with a
logged warning; the trimmed contents of a start or end file are parsed
with strconv.ParseUint base 0, a parse failure being fatal. -/
def efiStep (s : EFIState) (t : String × String × String) :
    Except String EFIState :=
  let dir := t.1
  let base := t.2.1
  if base ≠ "start" ∧ base ≠ "end" ∧ base ≠ "type" then
    .error "unexpected file"
  else
    let data := String.mk (trimSpace t.2.2.data)
    let r := s.ranges dir
    let keys' := if dir ∈ s.keys then s.keys else s.keys ++ [dir]
    if base = "type" then
      match sysfsToRangeType data with
      | some ty =>
        .ok ⟨updRanges s.ranges dir ⟨r.start, r.stop, ty⟩, keys', s.warnings⟩
      | none =>
        .ok ⟨updRanges s.ranges dir ⟨r.start, r.stop, RangeReserved⟩, keys',
             s.warnings ++ [(dir, data)]⟩
    else
      match parseUint0 data.data with
      | none => .error "parse error"
      | some v =>
        if base = "start" then
          .ok ⟨updRanges s.ranges dir ⟨v, r.stop, r.typ⟩, keys', s.warnings⟩
        else
          .ok ⟨updRanges s.ranges dir ⟨r.start, v, r.typ⟩, keys', s.warnings⟩

/-- Error-propagating left fold, as a loop returning the first error. -/
def exceptFoldl {σ α : Type} (f : σ → α → Except String σ) :
    σ → List α → Except String σ
  | s, [] => .ok s
  | s, x :: xs =>
    match f s x with
    | .error e => .error e
    | .ok s' => exceptFoldl f s' xs

/-- Initial walker state: empty Go map (zero-value default) and no
warnings. -/
def efiInit : EFIState :=
  ⟨fun _ => ⟨0, 0, ""⟩, [], []⟩

/-- The completed entry of one directory: the sysfs end address is
inclusive, so the range runs to end plus one. -/
def efiEntry (r : EFIMemRange) : TypedRange :=
  ⟨RangeFromInterval r.start (r.stop + 1), r.typ⟩

/-- Models memoryMapFromEFI: walk all file triples accumulating per
directory, then emit one typed range per directory and sort ascending by
start; returns the map together with the logged warnings. -/
def memoryMapFromEFI (ts : List (String × String × String)) :
    Except String (MemoryMap × List (String × String)) :=
  match exceptFoldl efiStep efiInit ts with
  | .error e => .error e
  | .ok s =>
    .ok (sortByStart (s.keys.map fun d => efiEntry (s.ranges d)), s.warnings)

deriving instance DecidableEq for Except

example : memoryMapFromEFI
    [("d", "start", "0x100"), ("d", "end", "0x1ff"), ("d", "type", "System RAM")] =
    .ok ([⟨⟨0x100, 0x100⟩, RangeRAM⟩], []) := by decide
example : memoryMapFromEFI [("d", "start", "0x100"), ("d", "type", "Bogus")] =
    .ok ([⟨⟨0x100, 0⟩, RangeReserved⟩], [("d", "Bogus")]) := by
  decide

/-
Device-tree adapter. The dt package is not among the sampled sources;
the tree, its walk and its property accessors are modelled from the spec
(section 6: a tree traversal primitive yielding nodes with named
properties device_type and reg, plus a top-level list of (address, size)
reservation pairs). A property value is either a string, a region or
something else; AsString and AsRegion fail on the wrong kind, which is
the malformed-property fatal parse error of the spec.
-/

/-- Modelled from the spec: a device-tree property value as consumed by
the adapter, either a string, a region (base, size) or some other blob. -/
inductive DTProp where
  | str : String → DTProp
  | region : Nat → Nat → DTProp
  | blob : DTProp
deriving DecidableEq

mutual
/-- Modelled from the spec: a device-tree node with a name, named
properties and child nodes. -/
inductive DTNode where
  | mk : String → List (String × DTProp) → DTNodeList → DTNode
deriving DecidableEq
/-- Children list of a device-tree node (a separate inductive so that
all recursion over the tree is structural). -/
inductive DTNodeList where
  | nil : DTNodeList
  | cons : DTNode → DTNodeList → DTNodeList
deriving DecidableEq
end

/-- Name of a node. -/
def DTNode.name : DTNode → String
  | .mk n _ _ => n

/-- Properties of a node. -/
def DTNode.props : DTNode → List (String × DTProp)
  | .mk _ ps _ => ps

/-- Modelled from the spec: LookProperty, the first property with the
given name, when present. -/
def lookProperty (n : DTNode) (key : String) : Option DTProp :=
  (n.props.find? fun p => p.1 == key).map fun p => p.2

/-- Modelled from the spec: AsString succeeds exactly on string values. -/
def DTProp.asString : DTProp → Except String String
  | .str s => .ok s
  | _ => .error "not a string"

/-- Modelled from the spec: AsRegion succeeds exactly on region values,
yielding the (base, size) pair. -/
def DTProp.asRegion : DTProp → Except String (Nat × Nat)
  | .region s z => .ok (s, z)
  | _ => .error "not a region"

mutual
/-- Modelled from the spec: the tree traversal order of Walk, the node
itself followed by its children's traversals. -/
def DTNode.preorder : DTNode → List DTNode
  | .mk n ps cs => .mk n ps cs :: DTNodeList.preorder cs
/-- Preorder traversal of a children list. -/
def DTNodeList.preorder : DTNodeList → List DTNode
  | .nil => []
  | .cons t ts => t.preorder ++ DTNodeList.preorder ts
end

mutual
/-- Modelled from the spec: NodeByName, the first node in traversal order
whose name matches, when present. -/
def DTNode.findByName (nm : String) : DTNode → Option DTNode
  | .mk n ps cs =>
    if n = nm then some (.mk n ps cs) else DTNodeList.findByName nm cs
/-- Name search over a children list. -/
def DTNodeList.findByName (nm : String) : DTNodeList → Option DTNode
  | .nil => none
  | .cons t ts =>
    match DTNode.findByName nm t with
    | some r => some r
    | none => DTNodeList.findByName nm ts
end

/-- The addMemory closure of MemoryMapFromFDT: a node whose device_type
property is the string "memory" (a missing property, a non-string value
or another string mean skip) contributes its reg region, appended to the
map as RAM without the overlay insert; a reg property that is not a
region is a fatal error. -/
def addMemory (phys : MemoryMap) (n : DTNode) : Except String MemoryMap :=
  match lookProperty n "device_type" with
  | none => .ok phys
  | some p =>
    match p.asString with
    | .error _ => .ok phys
    | .ok t =>
      if t ≠ "memory" then .ok phys
      else
        match lookProperty n "reg" with
        | none => .ok phys
        | some p2 =>
          match p2.asRegion with
          | .error e => .error e
          | .ok (s, z) => .ok (phys ++ [⟨⟨s, z⟩, RangeRAM⟩])

/-- The reserveMemory closure of MemoryMapFromFDT: a node with a reg
region has it overlay-inserted as Reserved; a reg property that is not a
region is a fatal error; a node without reg is skipped. -/
def reserveMemory (phys : MemoryMap) (n : DTNode) : Except String MemoryMap :=
  match lookProperty n "reg" with
  | none => .ok phys
  | some p =>
    match p.asRegion with
    | .error e => .error e
    | .ok (s, z) => .ok (phys.Insert ⟨⟨s, z⟩, RangeReserved⟩)

/-- Modelled from the spec: Walk applies the closure to every node in
traversal order, stopping at the first error. -/
def dtWalk (f : MemoryMap → DTNode → Except String MemoryMap)
    (phys : MemoryMap) (n : DTNode) : Except String MemoryMap :=
  exceptFoldl f phys n.preorder

/-- Modelled from the spec: a flattened device tree, the root node and
the top-level reservation table of (address, size) pairs. -/
structure FDT where
  root : DTNode
  reserveEntries : List (Nat × Nat)

/-- Models MemoryMapFromFDT: walk the whole tree appending the memory
nodes' regions as RAM, then walk the subtree rooted at the node named
reserved-memory (if present) overlay-inserting regions as Reserved, then
overlay-insert every top-level reserve entry as Reserved. -/
def MemoryMapFromFDT (fdt : FDT) : Except String MemoryMap :=
  match dtWalk addMemory [] fdt.root with
  | .error e => .error e
  | .ok phys1 =>
    match
      (match fdt.root.findByName "reserved-memory" with
       | some resv => dtWalk reserveMemory phys1 resv
       | none => .ok phys1) with
    | .error e => .error e
    | .ok phys2 =>
      .ok (fdt.reserveEntries.foldl
        (fun m r => m.Insert ⟨⟨r.1, r.2⟩, RangeReserved⟩) phys2)

example :
    MemoryMapFromFDT
      ⟨.mk "root" []
        (.cons (.mk "mem" [("device_type", .str "memory"),
                           ("reg", .region 0 4096)] .nil)
          (.cons (.mk "reserved-memory" []
            (.cons (.mk "r1" [("reg", .region 1024 1024)] .nil) .nil))
            .nil)),
       []⟩ =
    .ok [⟨⟨0, 1024⟩, RangeRAM⟩, ⟨⟨1024, 1024⟩, RangeReserved⟩,
         ⟨⟨2048, 2048⟩, RangeRAM⟩] := by decide

/-
Helper lemmas about the interval primitive and the overlay insert.
-/

/-- Characterization of the subtract pieces. -/
theorem mem_minus_iff {a b p : Range} :
    p ∈ a.minus b ↔
      (¬ Range.overlapsP a b ∧ p = a) ∨
      (Range.overlapsP a b ∧ a.start < b.start ∧
        p = ⟨a.start, b.start - a.start⟩) ∨
      (Range.overlapsP a b ∧ b.stop < a.stop ∧
        p = ⟨b.stop, a.stop - b.stop⟩) := by
  unfold Range.minus
  by_cases h : Range.overlapsP a b
  · by_cases h1 : a.start < b.start <;> by_cases h2 : b.stop < a.stop <;>
      simp [h, h1, h2]
  · simp [h]

/-- Symmetry of overlap. -/
theorem overlapsP_symm {a b : Range} (h : Range.overlapsP a b) :
    Range.overlapsP b a :=
  ⟨h.2, h.1⟩

/-- Symmetry of the map invariant relation. -/
theorem nonOverlap_symm : ∀ {x y : TypedRange},
    nonOverlap x y → nonOverlap y x :=
  fun h ho => h (overlapsP_symm ho)

/-- Each subtract piece lies within the bounds of the minuend. -/
theorem mem_minus_bounds {a b p : Range} (h : p ∈ a.minus b) :
    a.start ≤ p.start ∧ p.stop ≤ a.stop := by
  rcases mem_minus_iff.1 h with ⟨_, rfl⟩ | ⟨ho, h1, rfl⟩ | ⟨ho, h2, rfl⟩
  · exact ⟨Nat.le_refl _, Nat.le_refl _⟩
  · obtain ⟨ho1, ho2⟩ := ho
    refine ⟨Nat.le_refl _, ?_⟩
    show a.start + (b.start - a.start) ≤ a.stop
    omega
  · obtain ⟨ho1, ho2⟩ := ho
    refine ⟨Nat.le_of_lt ho1, ?_⟩
    show b.stop + (a.stop - b.stop) ≤ a.stop
    omega

/-- No subtract piece overlaps the subtrahend. -/
theorem mem_minus_not_overlaps {a b p : Range} (h : p ∈ a.minus b) :
    ¬ Range.overlapsP p b := by
  rcases mem_minus_iff.1 h with ⟨hno, rfl⟩ | ⟨ho, h1, rfl⟩ | ⟨ho, h2, rfl⟩
  · exact hno
  · intro hc
    have hc2 : b.start < a.start + (b.start - a.start) := hc.2
    omega
  · intro hc
    have hc1 : b.stop < b.stop := hc.1
    exact absurd hc1 (Nat.lt_irrefl _)

/-- The subtract pieces are mutually non-overlapping. -/
theorem minus_pairwise {a b : Range} :
    (a.minus b).Pairwise fun p q => ¬ Range.overlapsP p q := by
  unfold Range.minus
  by_cases h : Range.overlapsP a b
  · by_cases h1 : a.start < b.start <;> by_cases h2 : b.stop < a.stop <;>
      simp [h, h1, h2]
    intro hc
    obtain ⟨hc1, hc2⟩ := hc
    unfold Range.stop at *
    simp at hc1 hc2
    omega
  · simp [h]

/-- Pieces of non-overlapping ranges do not overlap. -/
theorem not_overlaps_of_bounds {q1 q2 p1 p2 : Range}
    (h : ¬ Range.overlapsP q1 q2)
    (b1 : q1.start ≤ p1.start ∧ p1.stop ≤ q1.stop)
    (b2 : q2.start ≤ p2.start ∧ p2.stop ≤ q2.stop) :
    ¬ Range.overlapsP p1 p2 := by
  intro hc
  exact h ⟨Nat.lt_of_le_of_lt b1.1 (Nat.lt_of_lt_of_le hc.1 b2.2),
           Nat.lt_of_le_of_lt b2.1 (Nat.lt_of_lt_of_le hc.2 b1.2)⟩

/-- Positive entries produce positive pieces. -/
theorem mem_minus_pos {a b p : Range} (ha : 0 < a.size) (h : p ∈ a.minus b) :
    0 < p.size := by
  rcases mem_minus_iff.1 h with ⟨_, rfl⟩ | ⟨ho, h1, rfl⟩ | ⟨ho, h2, rfl⟩
  · exact ha
  · simpa using Nat.sub_pos_of_lt h1
  · simpa [Range.stop] using Nat.sub_pos_of_lt h2

/-- A common point of two ranges makes them overlap. -/
theorem overlapsP_of_memPt {x : Nat} {a b : Range}
    (ha : Range.memPt x a) (hb : Range.memPt x b) :
    Range.overlapsP a b :=
  ⟨Nat.lt_of_le_of_lt ha.1 hb.2, Nat.lt_of_le_of_lt hb.1 ha.2⟩

/-- A point of a subtract piece is a point of the minuend. -/
theorem memPt_of_mem_minus {x : Nat} {a b p : Range} (h : p ∈ a.minus b)
    (hx : Range.memPt x p) : Range.memPt x a :=
  ⟨Nat.le_trans (mem_minus_bounds h).1 hx.1,
   Nat.lt_of_lt_of_le hx.2 (mem_minus_bounds h).2⟩

/-- A point of a subtract piece is not a point of the subtrahend. -/
theorem not_memPt_of_mem_minus {x : Nat} {a b p : Range} (h : p ∈ a.minus b)
    (hx : Range.memPt x p) : ¬ Range.memPt x b :=
  fun hb => mem_minus_not_overlaps h (overlapsP_of_memPt hx hb)

/-- For a zero-size subtrahend the pieces cover exactly the minuend. -/
theorem memPt_minus_empty {x : Nat} {a b : Range} (hb : b.size = 0)
    (hx : Range.memPt x a) : ∃ p ∈ a.minus b, Range.memPt x p := by
  obtain ⟨hx1, hx2⟩ := hx
  by_cases h : Range.overlapsP a b
  · obtain ⟨h1, h2⟩ := h
    unfold Range.minus
    rw [if_pos ⟨h1, h2⟩]
    by_cases hcmp : x < b.start
    · have hlt : a.start < b.start := Nat.lt_of_le_of_lt hx1 hcmp
      refine ⟨⟨a.start, b.start - a.start⟩, ?_, hx1, ?_⟩
      · rw [if_pos hlt]
        exact List.mem_append_left _ (List.mem_singleton.2 rfl)
      · show x < a.start + (b.start - a.start)
        omega
    · have hlt : b.stop < a.stop := by
        unfold Range.stop at *
        omega
      refine ⟨⟨b.stop, a.stop - b.stop⟩, ?_, ?_, ?_⟩
      · rw [if_pos hlt]
        exact List.mem_append_right _ (List.mem_singleton.2 rfl)
      · show b.stop ≤ x
        unfold Range.stop at *
        omega
      · show x < b.stop + (a.stop - b.stop)
        unfold Range.stop at *
        omega
  · refine ⟨a, ?_, hx1, hx2⟩
    unfold Range.minus
    rw [if_neg h]
    exact List.mem_singleton.2 rfl

/-- Insert produces a permutation of the carved entries followed by the
new entry. -/
theorem Insert_perm (m : MemoryMap) (e : TypedRange) :
    (m.Insert e).Perm (m.flatMap (carve e) ++ [e]) :=
  List.perm_insertionSort _ _

/-- Insert always returns a map sorted ascending by start. -/
theorem Insert_sorted (m : MemoryMap) (e : TypedRange) :
    List.Sorted leStart (m.Insert e) :=
  List.sorted_insertionSort leStart _

/-- Membership in the inserted map: the new entry, or a carved piece of
an old entry. -/
theorem mem_Insert_iff {m : MemoryMap} {e q : TypedRange} :
    q ∈ m.Insert e ↔ (∃ q0 ∈ m, q ∈ carve e q0) ∨ q = e := by
  rw [(Insert_perm m e).mem_iff, List.mem_append, List.mem_singleton,
    List.mem_flatMap]

/-- A carved piece lies within the bounds of its source entry. -/
theorem mem_carve_bounds {e q p : TypedRange} (h : p ∈ carve e q) :
    q.range.start ≤ p.range.start ∧ p.range.stop ≤ q.range.stop := by
  unfold carve at h
  obtain ⟨pr, hpr, rfl⟩ := List.mem_map.1 h
  exact mem_minus_bounds hpr

/-- A carved piece keeps the type of its source entry. -/
theorem mem_carve_typ {e q p : TypedRange} (h : p ∈ carve e q) :
    p.typ = q.typ := by
  unfold carve at h
  obtain ⟨pr, hpr, rfl⟩ := List.mem_map.1 h
  rfl

/-- A carved piece does not overlap the newly inserted entry. -/
theorem mem_carve_nonOverlap {e q p : TypedRange} (h : p ∈ carve e q) :
    nonOverlap p e := by
  unfold carve at h
  obtain ⟨pr, hpr, rfl⟩ := List.mem_map.1 h
  exact mem_minus_not_overlaps hpr

/-- Insert preserves mutual non-overlap of the map entries. -/
theorem Insert_pairwise {m : MemoryMap} (e : TypedRange)
    (h : m.Pairwise nonOverlap) : (m.Insert e).Pairwise nonOverlap := by
  rw [List.Perm.pairwise_iff (fun {_ _} => nonOverlap_symm) (Insert_perm m e),
    List.pairwise_append]
  refine ⟨?_, List.pairwise_singleton _ _, ?_⟩
  · rw [List.flatMap_def, List.pairwise_flatten]
    constructor
    · intro l hl
      obtain ⟨q, _, rfl⟩ := List.mem_map.1 hl
      unfold carve
      rw [List.pairwise_map]
      exact minus_pairwise.imp fun hpq => hpq
    · rw [List.pairwise_map]
      refine h.imp ?_
      intro q1 q2 h12 x hx y hy
      exact not_overlaps_of_bounds h12 (mem_carve_bounds hx)
        (mem_carve_bounds hy)
  · intro p hp y hy
    rw [List.mem_singleton] at hy
    subst hy
    obtain ⟨q, _, hp2⟩ := List.mem_flatMap.1 hp
    exact mem_carve_nonOverlap hp2

/-- The newly inserted entry is a member of the result. -/
theorem mem_Insert_self (m : MemoryMap) (e : TypedRange) :
    e ∈ m.Insert e :=
  mem_Insert_iff.2 (Or.inr rfl)

/-- Insert preserves positivity of all entry sizes. -/
theorem Insert_pos {m : MemoryMap} {e : TypedRange}
    (h : ∀ q ∈ m, 0 < q.range.size) (he : 0 < e.range.size) :
    ∀ q ∈ m.Insert e, 0 < q.range.size := by
  intro q hq
  rcases mem_Insert_iff.1 hq with ⟨q0, hq0, hc⟩ | rfl
  · unfold carve at hc
    obtain ⟨pr, hpr, rfl⟩ := List.mem_map.1 hc
    exact mem_minus_pos (h q0 hq0) hpr
  · exact he

/-- In the inserted map, every point of the new entry's footprint is
covered only by the new entry itself. -/
theorem Insert_covers_footprint {m : MemoryMap} {e q : TypedRange} {x : Nat}
    (hx : Range.memPt x e.range) (hq : q ∈ m.Insert e)
    (hqx : Range.memPt x q.range) : q = e := by
  rcases mem_Insert_iff.1 hq with ⟨q0, _, hc⟩ | rfl
  · unfold carve at hc
    obtain ⟨pr, hpr, rfl⟩ := List.mem_map.1 hc
    exact absurd hx (not_memPt_of_mem_minus hpr hqx)
  · rfl

/-- Insert with an entry of type T preserves the property that a given
point is covered only by entries of type T. -/
theorem Insert_preserves_covered_typ {m : MemoryMap} {e : TypedRange}
    {x : Nat} {T : RangeType}
    (h : ∀ q ∈ m, Range.memPt x q.range → q.typ = T) (he : e.typ = T) :
    ∀ q ∈ m.Insert e, Range.memPt x q.range → q.typ = T := by
  intro q hq hqx
  rcases mem_Insert_iff.1 hq with ⟨q0, hq0, hc⟩ | rfl
  · unfold carve at hc
    obtain ⟨pr, hpr, rfl⟩ := List.mem_map.1 hc
    exact h q0 hq0 (memPt_of_mem_minus hpr hqx)
  · exact he

/-- The carving of one entry yields at most two pieces. -/
theorem carve_length_le_two (e q : TypedRange) : (carve e q).length ≤ 2 := by
  unfold carve Range.minus
  by_cases h : Range.overlapsP q.range e.range
  · by_cases h1 : q.range.start < e.range.start <;>
      by_cases h2 : e.range.stop < q.range.stop <;>
      simp [h, h1, h2]
  · simp [h]

/-- Folding Insert preserves the pairwise non-overlap and sortedness
invariant of the map. -/
theorem foldl_Insert_inv (rs : List TypedRange) (m : MemoryMap)
    (hpw : m.Pairwise nonOverlap) (hs : List.Sorted leStart m) :
    ((rs.foldl MemoryMap.Insert m).Pairwise nonOverlap) ∧
      List.Sorted leStart (rs.foldl MemoryMap.Insert m) := by
  induction rs generalizing m with
  | nil => exact ⟨hpw, hs⟩
  | cons r rs ih =>
    exact ih (m.Insert r) (Insert_pairwise r hpw) (Insert_sorted m r)

/-- C1: for every memory map m and every TypedRange e, Insert replaces
each existing entry q by the pieces of q's range not covered by e's range
(at most two pieces, each keeping q's type), appends e unchanged, and the
result is sorted ascending by start; every entry of the result other than
e itself avoids e's footprint, so e's type and boundaries take priority
over everything previously present there (last-insert-wins overlay). -/
theorem C1_insert_overlay (m : MemoryMap) (e : TypedRange) :
    (m.Insert e).Perm (m.flatMap (carve e) ++ [e]) ∧
    List.Sorted leStart (m.Insert e) ∧
    (∀ q, (carve e q).length ≤ 2) ∧
    (∀ q p, p ∈ carve e q → p.typ = q.typ ∧ nonOverlap p e) ∧
    (∀ q ∈ m.Insert e, q = e ∨ nonOverlap q e) := by
  refine ⟨Insert_perm m e, Insert_sorted m e, carve_length_le_two e,
    fun q p hp => ⟨mem_carve_typ hp, mem_carve_nonOverlap hp⟩, ?_⟩
  intro q hq
  rcases mem_Insert_iff.1 hq with ⟨q0, _, hc⟩ | rfl
  · exact Or.inr (mem_carve_nonOverlap hc)
  · exact Or.inl rfl

/-- C2: for every sequence of Insert calls starting from the empty map
with all inserted ranges of positive size, after each individual call
(that is, after every prefix of the sequence) the map entries are
pairwise non-overlapping and sorted ascending by start. -/
theorem C2_insert_invariant (pre suf : List TypedRange)
    (_hpos : ∀ r ∈ pre ++ suf, 0 < r.range.size) :
    ((pre.foldl MemoryMap.Insert []).Pairwise nonOverlap) ∧
      List.Sorted leStart (pre.foldl MemoryMap.Insert []) :=
  foldl_Insert_inv pre [] (List.Pairwise.nil) (List.sorted_nil)

/-- Witness for C2 at a concrete two-step insert sequence. -/
theorem C2_insert_invariant_witness :
    (∀ r ∈ [⟨⟨0, 16⟩, RangeRAM⟩, ⟨⟨8, 16⟩, RangeReserved⟩] ++
        ([] : List TypedRange), 0 < r.range.size) ∧
    ((([⟨⟨0, 16⟩, RangeRAM⟩, ⟨⟨8, 16⟩, RangeReserved⟩] :
        List TypedRange).foldl MemoryMap.Insert []).Pairwise nonOverlap ∧
      List.Sorted leStart
        (([⟨⟨0, 16⟩, RangeRAM⟩, ⟨⟨8, 16⟩, RangeReserved⟩] :
          List TypedRange).foldl MemoryMap.Insert [])) :=
  ⟨by decide,
   C2_insert_invariant [⟨⟨0, 16⟩, RangeRAM⟩, ⟨⟨8, 16⟩, RangeReserved⟩] []
     (by decide)⟩

/-- C8 counterexample: inserting a zero-size range is not a no-op; on the
empty map it yields a one-entry map, so the entry sequence changes. -/
theorem C8_counterexample :
    MemoryMap.Insert [] ⟨⟨5, 0⟩, RangeRAM⟩ ≠ [] := by decide

/-- C8 amended: inserting a zero-size entry is not sequence-preserving
(the entry is appended, and an entry strictly containing its start point
is split); what is preserved is the covered point-set: the new zero-size
entry is a member of the result, and an address is covered by an entry of
a given type in the new map exactly when it was in the old map. -/
theorem C8_zero_size_insert (m : MemoryMap) (e : TypedRange)
    (he : e.range.size = 0) :
    e ∈ m.Insert e ∧
    ∀ x t, (∃ q ∈ m.Insert e, Range.memPt x q.range ∧ q.typ = t) ↔
      (∃ q ∈ m, Range.memPt x q.range ∧ q.typ = t) := by
  refine ⟨mem_Insert_self m e, ?_⟩
  intro x t
  constructor
  · rintro ⟨q, hq, hx, rfl⟩
    rcases mem_Insert_iff.1 hq with ⟨q0, hq0, hc⟩ | rfl
    · unfold carve at hc
      obtain ⟨pr, hpr, rfl⟩ := List.mem_map.1 hc
      exact ⟨q0, hq0, memPt_of_mem_minus hpr hx, rfl⟩
    · exfalso
      obtain ⟨hx1, hx2⟩ := hx
      unfold Range.stop at hx2
      omega
  · rintro ⟨q, hq, hx, rfl⟩
    obtain ⟨p, hp, hxp⟩ := memPt_minus_empty he hx
    refine ⟨⟨p, q.typ⟩, ?_, hxp, rfl⟩
    refine mem_Insert_iff.2 (Or.inl ⟨q, hq, ?_⟩)
    unfold carve
    exact List.mem_map.2 ⟨p, hp, rfl⟩

/-- Witness for C8 amended at a concrete map and zero-size entry. -/
theorem C8_zero_size_insert_witness :
    ((⟨⟨5, 0⟩, RangeReserved⟩ : TypedRange).range.size = 0) ∧
    ((⟨⟨5, 0⟩, RangeReserved⟩ : TypedRange) ∈
        MemoryMap.Insert [⟨⟨0, 16⟩, RangeRAM⟩] ⟨⟨5, 0⟩, RangeReserved⟩ ∧
      ∀ x t,
        (∃ q ∈ MemoryMap.Insert [⟨⟨0, 16⟩, RangeRAM⟩] ⟨⟨5, 0⟩, RangeReserved⟩,
            Range.memPt x q.range ∧ q.typ = t) ↔
        (∃ q ∈ ([⟨⟨0, 16⟩, RangeRAM⟩] : MemoryMap),
            Range.memPt x q.range ∧ q.typ = t)) :=
  ⟨rfl, C8_zero_size_insert [⟨⟨0, 16⟩, RangeRAM⟩] ⟨⟨5, 0⟩, RangeReserved⟩ rfl⟩

/-
Claims about the text adapters.
-/

/-- Splitting on a character yields one more piece than the number of
occurrences of the character. -/
theorem splitChar_length (sep : Char) (s : List Char) :
    (splitChar sep s).length = s.count sep + 1 := by
  induction s with
  | nil => rfl
  | cons c cs ih =>
    cases h : splitChar sep cs with
    | nil => rw [h] at ih; simp at ih
    | cons hd tl =>
      rw [h] at ih
      by_cases hc : c = sep
      · subst hc
        simp [splitChar, h, List.count_cons]
        simp at ih
        omega
      · simp [splitChar, h, hc, List.count_cons]
        simp at ih
        omega

/-- C10: every input line of the kernel resource-list adapter containing
more than one colon contributes no entry to the map and is silently
skipped. -/
theorem C10_multi_colon_skipped (line : String)
    (h : 2 ≤ line.data.count ':') :
    iomemLineEntry line = none ∧ ∀ mm, iomemStep mm line = mm := by
  have hnone : iomemLineEntry line = none := by
    unfold iomemLineEntry
    have hl := splitChar_length ':' line.data
    cases hsp : splitChar ':' line.data with
    | nil => rfl
    | cons a t =>
      cases t with
      | nil => rfl
      | cons b t2 =>
        cases t2 with
        | nil =>
          rw [hsp] at hl
          simp at hl
          omega
        | cons c t3 => rfl
  refine ⟨hnone, fun mm => ?_⟩
  unfold iomemStep
  rw [hnone]

/-- Witness for C10 at the PCI-bus line from the source comment, whose
label itself contains a colon. -/
theorem C10_multi_colon_skipped_witness :
    2 ≤ ("740100000000-7401001fffff : PCI Bus 0001:01").data.count ':' ∧
    (iomemLineEntry "740100000000-7401001fffff : PCI Bus 0001:01" = none ∧
      ∀ mm, iomemStep mm "740100000000-7401001fffff : PCI Bus 0001:01" = mm) :=
  ⟨by decide,
   C10_multi_colon_skipped "740100000000-7401001fffff : PCI Bus 0001:01"
     (by decide)⟩

/-- C7: in both line-oriented text adapters a well-formed line whose
parsed start address equals its parsed end address denotes an empty range
and contributes no entry to the map: the per-line parser returns nothing
and the scanner step leaves the map unchanged. -/
theorem C7_empty_range_skipped (li lm : String)
    (f0 f1 a0 a1 i g1 b0 b1 : List Char) (v w : Nat)
    (h1 : splitChar ':' li.data = [f0, f1])
    (h2 : splitChar '-' (trimSpace f0) = [a0, a1])
    (h3 : parseHex a0 = some v) (h4 : parseHex a1 = some v)
    (h5 : splitChar ':' lm.data = [i, g1])
    (h6 : splitDots (trimSpace g1) = [b0, b1])
    (h7 : parseHex (cutPrefix0x b0) = some w)
    (h8 : parseHex (cutPrefix0x b1) = some w) :
    iomemLineEntry li = none ∧ (∀ mm, iomemStep mm li = mm) ∧
    rangeFromMemblockLine lm = none ∧
    (∀ typ mm, memblockStep typ mm lm = mm) := by
  have hio : iomemLineEntry li = none := by
    unfold iomemLineEntry
    rw [h1]
    simp only []
    rw [h2]
    simp only []
    rw [h3]
    simp only []
    rw [h4]
    simp
  have hmb : rangeFromMemblockLine lm = none := by
    unfold rangeFromMemblockLine
    rw [h5]
    simp only []
    rw [h6]
    simp only []
    rw [h7]
    simp only []
    rw [h8]
    simp
  refine ⟨hio, fun mm => ?_, hmb, fun typ mm => ?_⟩
  · unfold iomemStep
    rw [hio]
  · unfold memblockStep
    rw [hmb]

/-- Witness for C7 at the line from the spec example and a corresponding
memblock line. -/
theorem C7_empty_range_skipped_witness :
    (splitChar ':' ("1000-1000 : Empty").data =
      ["1000-1000 ".data, " Empty".data]) ∧
    (iomemLineEntry "1000-1000 : Empty" = none ∧
      (∀ mm, iomemStep mm "1000-1000 : Empty" = mm) ∧
      rangeFromMemblockLine "   0: 0x1000..0x1000" = none ∧
      (∀ typ mm, memblockStep typ mm "   0: 0x1000..0x1000" = mm)) :=
  ⟨by decide,
   C7_empty_range_skipped "1000-1000 : Empty" "   0: 0x1000..0x1000"
     "1000-1000 ".data " Empty".data "1000".data "1000".data
     "   0".data " 0x1000..0x1000".data "0x1000".data "0x1000".data
     0x1000 0x1000
     (by decide) (by decide) (by decide) (by decide) (by decide)
     (by decide) (by decide) (by decide)⟩

/-- The type of any entry of an inserted map is the type of some entry of
the previous map or the type of the inserted entry. -/
theorem Insert_typ_from {m : MemoryMap} {e q : TypedRange}
    (hq : q ∈ m.Insert e) : (∃ q0 ∈ m, q.typ = q0.typ) ∨ q.typ = e.typ := by
  rcases mem_Insert_iff.1 hq with ⟨q0, hq0, hc⟩ | rfl
  · exact Or.inl ⟨q0, hq0, mem_carve_typ hc⟩
  · exact Or.inr rfl

/-- The type of any entry of the iomem fold comes from the initial map or
from the parsed entry of some processed line. -/
theorem foldl_iomemStep_typ_from (lines : List String) (m : MemoryMap)
    (q : TypedRange) (hq : q ∈ lines.foldl iomemStep m) :
    (∃ q0 ∈ m, q.typ = q0.typ) ∨
    (∃ l ∈ lines, ∃ e, iomemLineEntry l = some e ∧ q.typ = e.typ) := by
  induction lines generalizing m with
  | nil => exact Or.inl ⟨q, hq, rfl⟩
  | cons l ls ih =>
    rcases ih (iomemStep m l) hq with ⟨q0, hq0, hty⟩ | ⟨l', hl', e, he, hty⟩
    · unfold iomemStep at hq0
      cases he : iomemLineEntry l with
      | none =>
        rw [he] at hq0
        exact Or.inl ⟨q0, hq0, hty⟩
      | some e =>
        rw [he] at hq0
        rcases Insert_typ_from hq0 with ⟨q1, hq1, hty1⟩ | hty1
        · exact Or.inl ⟨q1, hq1, hty.trans hty1⟩
        · exact Or.inr ⟨l, List.mem_cons_self l ls, e, he, hty.trans hty1⟩
    · exact Or.inr ⟨l', List.mem_cons_of_mem l hl', e, he, hty⟩

/-- C4 counterexample: the claim fails on the code; an unrecognized label
is stored verbatim, so the map built from the line with label Foo holds
an entry whose type is outside the closed enumeration. -/
theorem C4_counterexample :
    memoryMapFromIOMem ["1000-2000 : Foo"] =
      [⟨⟨0x1000, 0x1001⟩, "Foo"⟩] ∧
    ("Foo" : RangeType) ∉
      [RangeRAM, RangeDefault, RangeACPI, RangeNVS, RangeReserved] := by
  constructor
  · decide
  · decide

/-- C4 amended: the label is mapped to Reserved exactly when it
case-sensitively equals the string "reserved"; any other label is kept
verbatim as the entry type (possibly outside the closed enumeration; the
coercion of unknown types to Reserved happens only in the payload
projection). Every entry type of the built map is the rangeType image of
the label of some input line. -/
theorem C4_label_kept_verbatim (lines : List String) (q : TypedRange)
    (hq : q ∈ memoryMapFromIOMem lines) :
    (∃ l ∈ lines, ∃ e, iomemLineEntry l = some e ∧ q.typ = e.typ) ∧
    rangeType "reserved" = RangeReserved ∧
    (∀ s : String, s ≠ "reserved" → rangeType s = s) := by
  refine ⟨?_, rfl, fun s hs => if_neg hs⟩
  rcases foldl_iomemStep_typ_from lines [] q hq with ⟨q0, hq0, _⟩ | h
  · exact absurd hq0 (List.not_mem_nil q0)
  · exact h

/-- Witness for C4 amended at a concrete reserved line. -/
theorem C4_label_kept_verbatim_witness :
    ((⟨⟨0x1000, 0x1001⟩, RangeReserved⟩ : TypedRange) ∈
      memoryMapFromIOMem ["1000-2000 : reserved"]) ∧
    ((∃ l ∈ ["1000-2000 : reserved"], ∃ e, iomemLineEntry l = some e ∧
        (⟨⟨0x1000, 0x1001⟩, RangeReserved⟩ : TypedRange).typ = e.typ) ∧
      rangeType "reserved" = RangeReserved ∧
      (∀ s : String, s ≠ "reserved" → rangeType s = s)) :=
  ⟨by decide,
   C4_label_kept_verbatim ["1000-2000 : reserved"]
     ⟨⟨0x1000, 0x1001⟩, RangeReserved⟩ (by decide)⟩

/-- The 64-bit end-inclusive computation equals start plus size minus one
for in-range entries. -/
theorem projEnd_eq {s z : Nat} (hz : 0 < z) (hb : s + z ≤ U64) :
    (s % U64 + z % U64 + (U64 - 1)) % U64 = s + z - 1 := by
  have hU : U64 = 18446744073709551616 := by decide
  rw [hU] at hb ⊢
  omega

/-- C5: the payload projection emits exactly one entry per map entry in
map order, with the entry's start, inclusive end start plus size minus
one, and the fixed type-code table RAM 1, Default 2, ACPI 3, NVS 4,
Reserved 5, every unknown type mapping to code 5; it is total and on the
single ACPI entry from 0x4000 to 0x5000 yields start 0x4000, inclusive
end 0x4FFF, code 3. -/
theorem C5_payload_projection (m : MemoryMap)
    (hm : ∀ e ∈ m, 0 < e.range.size ∧ e.range.start + e.range.size ≤ U64) :
    ToUEFIPayloadMemoryMap m =
      m.map (fun e => ⟨e.range.start, e.range.start + e.range.size - 1,
        convertToUEFIPayloadMemType e.typ⟩) ∧
    (ToUEFIPayloadMemoryMap m).length = m.length ∧
    convertToUEFIPayloadMemType RangeRAM = 1 ∧
    convertToUEFIPayloadMemType RangeDefault = 2 ∧
    convertToUEFIPayloadMemType RangeACPI = 3 ∧
    convertToUEFIPayloadMemType RangeNVS = 4 ∧
    convertToUEFIPayloadMemType RangeReserved = 5 ∧
    (∀ t, rangeTypeToUEFIPayloadMemType t = none →
      convertToUEFIPayloadMemType t = 5) ∧
    ToUEFIPayloadMemoryMap [⟨⟨0x4000, 0x1000⟩, RangeACPI⟩] =
      [⟨0x4000, 0x4FFF, 3⟩] := by
  have hmap : ToUEFIPayloadMemoryMap m =
      m.map (fun e => ⟨e.range.start, e.range.start + e.range.size - 1,
        convertToUEFIPayloadMemType e.typ⟩) := by
    unfold ToUEFIPayloadMemoryMap
    refine List.map_congr_left ?_
    intro e he
    obtain ⟨hz, hb⟩ := hm e he
    have h1 : e.range.start % U64 = e.range.start := by
      have hU : U64 = 18446744073709551616 := by decide
      rw [hU] at hb ⊢
      omega
    rw [projEnd_eq hz hb, h1]
  refine ⟨hmap, ?_, rfl, rfl, rfl, rfl, rfl, ?_, by decide⟩
  · rw [hmap, List.length_map]
  · intro t ht
    unfold convertToUEFIPayloadMemType
    rw [ht]

/-- Witness for C5 at the single-ACPI-entry map from the spec example. -/
theorem C5_payload_projection_witness :
    (∀ e ∈ ([⟨⟨0x4000, 0x1000⟩, RangeACPI⟩] : MemoryMap),
      0 < e.range.size ∧ e.range.start + e.range.size ≤ U64) ∧
    ToUEFIPayloadMemoryMap [⟨⟨0x4000, 0x1000⟩, RangeACPI⟩] =
      ([⟨⟨0x4000, 0x1000⟩, RangeACPI⟩] : MemoryMap).map
        (fun e => ⟨e.range.start, e.range.start + e.range.size - 1,
          convertToUEFIPayloadMemType e.typ⟩) :=
  ⟨by decide,
   (C5_payload_projection [⟨⟨0x4000, 0x1000⟩, RangeACPI⟩] (by decide)).1⟩

/-
Claims about the device-tree adapter.
-/

/-- C3 counterexample: the claim fails on the code; memory-node regions
are appended directly rather than overlay-inserted, so a tree whose
memory nodes appear with descending start addresses (and no reservations
at all) yields a map that is not sorted ascending by start, violating the
map invariants. -/
theorem C3_counterexample :
    MemoryMapFromFDT
      ⟨.mk "root" []
        (.cons (.mk "m1" [("device_type", .str "memory"),
                          ("reg", .region 4096 4096)] .nil)
          (.cons (.mk "m0" [("device_type", .str "memory"),
                            ("reg", .region 0 256)] .nil) .nil)),
       []⟩ =
      .ok [⟨⟨4096, 4096⟩, RangeRAM⟩, ⟨⟨0, 256⟩, RangeRAM⟩] ∧
    ¬ List.Sorted leStart
        [⟨⟨4096, 4096⟩, RangeRAM⟩, ⟨⟨0, 256⟩, RangeRAM⟩] := by
  constructor
  · decide
  · decide

/-- A reserveMemory step either keeps the map or overlay-inserts one
Reserved entry. -/
theorem reserveMemory_cases {m m1 : MemoryMap} {n : DTNode}
    (h : reserveMemory m n = .ok m1) :
    m1 = m ∨ ∃ s z, m1 = m.Insert ⟨⟨s, z⟩, RangeReserved⟩ := by
  unfold reserveMemory at h
  cases h1 : lookProperty n "reg" with
  | none =>
    rw [h1] at h
    cases h
    exact Or.inl rfl
  | some p =>
    rw [h1] at h
    cases p with
    | str s => simp [DTProp.asRegion] at h
    | region s z =>
      simp only [DTProp.asRegion] at h
      cases h
      exact Or.inr ⟨s, z, rfl⟩
    | blob => simp [DTProp.asRegion] at h

/-- The reserved-memory walk preserves the map invariants. -/
theorem exceptFoldl_reserveMemory_inv (ns : List DTNode) :
    ∀ (m m' : MemoryMap),
      exceptFoldl reserveMemory m ns = .ok m' →
      m.Pairwise nonOverlap → List.Sorted leStart m →
      m'.Pairwise nonOverlap ∧ List.Sorted leStart m' := by
  induction ns with
  | nil =>
    intro m m' h hpw hs
    unfold exceptFoldl at h
    cases h
    exact ⟨hpw, hs⟩
  | cons n ns ih =>
    intro m m' h hpw hs
    unfold exceptFoldl at h
    cases hstep : reserveMemory m n with
    | error e => rw [hstep] at h; cases h
    | ok m1 =>
      rw [hstep] at h
      rcases reserveMemory_cases hstep with rfl | ⟨s, z, rfl⟩
      · exact ih _ _ h hpw hs
      · exact ih _ _ h (Insert_pairwise _ hpw) (Insert_sorted m _)

/-- A fold of overlay-inserts preserves the map invariants. -/
theorem foldl_Insert_inv_general {α : Type} (f : α → TypedRange)
    (rs : List α) :
    ∀ (m : MemoryMap), m.Pairwise nonOverlap → List.Sorted leStart m →
    ((rs.foldl (fun acc r => MemoryMap.Insert acc (f r)) m).Pairwise
        nonOverlap) ∧
      List.Sorted leStart
        (rs.foldl (fun acc r => MemoryMap.Insert acc (f r)) m) := by
  induction rs with
  | nil => exact fun m hpw hs => ⟨hpw, hs⟩
  | cons r rs ih =>
    intro m hpw hs
    exact ih _ (Insert_pairwise _ hpw) (Insert_sorted m _)

/-- A fold of overlay-inserts of one type preserves the property that a
point is covered only by entries of that type. -/
theorem foldl_Insert_preserves_covered {α : Type} (f : α → TypedRange)
    (x : Nat) (T : RangeType) (rs : List α) :
    ∀ (m : MemoryMap),
      (∀ r ∈ rs, (f r).typ = T) →
      (∀ q ∈ m, Range.memPt x q.range → q.typ = T) →
      ∀ q ∈ rs.foldl (fun acc r => MemoryMap.Insert acc (f r)) m,
        Range.memPt x q.range → q.typ = T := by
  induction rs with
  | nil => exact fun m _ h => h
  | cons r rs ih =>
    intro m hT h
    exact ih _ (fun r' hr' => hT r' (List.mem_cons_of_mem r hr'))
      (Insert_preserves_covered_typ h (hT r (List.mem_cons_self r rs)))

/-- After a fold of Reserved overlay-inserts, every point in the
footprint of any of the inserted ranges is covered only by Reserved
entries. -/
theorem foldl_Insert_reserved_carve {α : Type} (f : α → TypedRange)
    (x : Nat) (rs : List α) :
    ∀ (m : MemoryMap),
      (∀ r ∈ rs, (f r).typ = RangeReserved) →
      ∀ r0 ∈ rs, Range.memPt x (f r0).range →
      ∀ q ∈ rs.foldl (fun acc r => MemoryMap.Insert acc (f r)) m,
        Range.memPt x q.range → q.typ = RangeReserved := by
  induction rs with
  | nil =>
    intro m _ r0 hr0
    cases hr0
  | cons r rs ih =>
    intro m hT r0 hr0 hx
    rcases List.mem_cons.1 hr0 with rfl | hr0'
    · refine foldl_Insert_preserves_covered f x RangeReserved rs _
        (fun r' hr' => hT r' (List.mem_cons_of_mem r0 hr')) ?_
      intro q hq hqx
      rw [Insert_covers_footprint hx hq hqx]
      exact hT r0 (List.mem_cons_self r0 rs)
    · exact ih _ (fun r' hr' => hT r' (List.mem_cons_of_mem r hr')) r0 hr0' hx

/-- C3 amended: the adapter appends every memory node's reg region as RAM
directly (not via the overlay insert), then overlay-inserts every node of
the reserved-memory subtree as Reserved after all RAM, then overlay-
inserts every top-level reserve-table entry as Reserved last. Whenever
the RAM phase yields a map satisfying the invariants (as disjoint,
ascending firmware memory nodes do), every successful construction
satisfies the invariants (sorted ascending, pairwise non-overlapping),
and every reserve-table entry's footprint is covered only by Reserved
entries in the final map, so reservations carve into overlapping RAM. -/
theorem C3_fdt_construction (fdt : FDT) (m0 final : MemoryMap)
    (h0 : dtWalk addMemory [] fdt.root = .ok m0)
    (hpw : m0.Pairwise nonOverlap) (hs : List.Sorted leStart m0)
    (hfin : MemoryMapFromFDT fdt = .ok final) :
    (final.Pairwise nonOverlap ∧ List.Sorted leStart final) ∧
    (∀ r ∈ fdt.reserveEntries, ∀ x, Range.memPt x ⟨r.1, r.2⟩ →
      ∀ q ∈ final, Range.memPt x q.range → q.typ = RangeReserved) := by
  unfold MemoryMapFromFDT at hfin
  rw [h0] at hfin
  simp only [] at hfin
  have step : ∀ m2 : MemoryMap, m2.Pairwise nonOverlap →
      List.Sorted leStart m2 →
      final = fdt.reserveEntries.foldl
        (fun m r => MemoryMap.Insert m ⟨⟨r.1, r.2⟩, RangeReserved⟩) m2 →
      (final.Pairwise nonOverlap ∧ List.Sorted leStart final) ∧
      (∀ r ∈ fdt.reserveEntries, ∀ x, Range.memPt x ⟨r.1, r.2⟩ →
        ∀ q ∈ final, Range.memPt x q.range → q.typ = RangeReserved) := by
    intro m2 hpw2 hs2 hfe
    subst hfe
    refine ⟨foldl_Insert_inv_general _ fdt.reserveEntries m2 hpw2 hs2, ?_⟩
    intro r hr x hx q hq hqx
    exact foldl_Insert_reserved_carve
      (fun r : Nat × Nat => (⟨⟨r.1, r.2⟩, RangeReserved⟩ : TypedRange)) x
      fdt.reserveEntries m2 (fun _ _ => rfl) r hr hx q hq hqx
  cases hF : fdt.root.findByName "reserved-memory" with
  | none =>
    rw [hF] at hfin
    simp only [] at hfin
    cases hfin
    exact step m0 hpw hs rfl
  | some resv =>
    rw [hF] at hfin
    simp only [] at hfin
    cases hmid : dtWalk reserveMemory m0 resv with
    | error e =>
      rw [hmid] at hfin
      cases hfin
    | ok m2 =>
      rw [hmid] at hfin
      simp only [] at hfin
      obtain ⟨hpw2, hs2⟩ :=
        exceptFoldl_reserveMemory_inv resv.preorder m0 m2 hmid hpw hs
      cases hfin
      exact step m2 hpw2 hs2 rfl

/-- Witness for C3 amended at a concrete tree with one memory node, one
reserved-memory descendant and one reserve-table entry. -/
theorem C3_fdt_construction_witness :
    (dtWalk addMemory []
      (.mk "root" []
        (.cons (.mk "mem" [("device_type", .str "memory"),
                           ("reg", .region 0 4096)] .nil)
          (.cons (.mk "reserved-memory" []
            (.cons (.mk "r1" [("reg", .region 1024 1024)] .nil) .nil))
            .nil))) = .ok [⟨⟨0, 4096⟩, RangeRAM⟩]) ∧
    (([⟨⟨0, 4096⟩, RangeRAM⟩] : MemoryMap).Pairwise nonOverlap) ∧
    List.Sorted leStart ([⟨⟨0, 4096⟩, RangeRAM⟩] : MemoryMap) ∧
    (MemoryMapFromFDT
      ⟨.mk "root" []
        (.cons (.mk "mem" [("device_type", .str "memory"),
                           ("reg", .region 0 4096)] .nil)
          (.cons (.mk "reserved-memory" []
            (.cons (.mk "r1" [("reg", .region 1024 1024)] .nil) .nil))
            .nil)),
       [(3072, 512)]⟩ =
      .ok [⟨⟨0, 1024⟩, RangeRAM⟩, ⟨⟨1024, 1024⟩, RangeReserved⟩,
           ⟨⟨2048, 1024⟩, RangeRAM⟩, ⟨⟨3072, 512⟩, RangeReserved⟩,
           ⟨⟨3584, 512⟩, RangeRAM⟩]) ∧
    (([⟨⟨0, 1024⟩, RangeRAM⟩, ⟨⟨1024, 1024⟩, RangeReserved⟩,
       ⟨⟨2048, 1024⟩, RangeRAM⟩, ⟨⟨3072, 512⟩, RangeReserved⟩,
       ⟨⟨3584, 512⟩, RangeRAM⟩] : MemoryMap).Pairwise nonOverlap ∧
      List.Sorted leStart
        ([⟨⟨0, 1024⟩, RangeRAM⟩, ⟨⟨1024, 1024⟩, RangeReserved⟩,
          ⟨⟨2048, 1024⟩, RangeRAM⟩, ⟨⟨3072, 512⟩, RangeReserved⟩,
          ⟨⟨3584, 512⟩, RangeRAM⟩] : MemoryMap)) ∧
    (∀ r ∈ [((3072 : Nat), (512 : Nat))], ∀ x, Range.memPt x ⟨r.1, r.2⟩ →
      ∀ q ∈ ([⟨⟨0, 1024⟩, RangeRAM⟩, ⟨⟨1024, 1024⟩, RangeReserved⟩,
              ⟨⟨2048, 1024⟩, RangeRAM⟩, ⟨⟨3072, 512⟩, RangeReserved⟩,
              ⟨⟨3584, 512⟩, RangeRAM⟩] : MemoryMap),
        Range.memPt x q.range → q.typ = RangeReserved) :=
  ⟨by decide, by decide, by decide, by decide,
   C3_fdt_construction
     ⟨.mk "root" []
        (.cons (.mk "mem" [("device_type", .str "memory"),
                           ("reg", .region 0 4096)] .nil)
          (.cons (.mk "reserved-memory" []
            (.cons (.mk "r1" [("reg", .region 1024 1024)] .nil) .nil))
            .nil)),
      [(3072, 512)]⟩
     [⟨⟨0, 4096⟩, RangeRAM⟩]
     [⟨⟨0, 1024⟩, RangeRAM⟩, ⟨⟨1024, 1024⟩, RangeReserved⟩,
      ⟨⟨2048, 1024⟩, RangeRAM⟩, ⟨⟨3072, 512⟩, RangeReserved⟩,
      ⟨⟨3584, 512⟩, RangeRAM⟩]
     (by decide) (by decide) (by decide) (by decide)⟩

/-
Claims about the firmware (EFI) sysfs adapter.
-/

/-- Well-formedness of one file triple: a recognized attribute-file name,
and contents that parse as a number unless it is the type file. The type
file's contents are unconstrained: any label is acceptable. -/
def tripleOK (t : String × String × String) : Prop :=
  (t.2.1 = "start" ∨ t.2.1 = "end" ∨ t.2.1 = "type") ∧
  (t.2.1 ≠ "type" → parseUint0 (trimSpace t.2.2.data) ≠ none)

instance (t : String × String × String) : Decidable (tripleOK t) := by
  unfold tripleOK
  infer_instance

/-- A well-formed triple never makes the walker fail, whatever the type
label says. -/
theorem efiStep_ok {t : String × String × String} (h : tripleOK t)
    (s : EFIState) : ∃ s', efiStep s t = .ok s' := by
  obtain ⟨t1, tb, tc⟩ := t
  obtain ⟨hbase, hparse⟩ := h
  simp only at hbase hparse
  have hcond : ¬(tb ≠ "start" ∧ tb ≠ "end" ∧ tb ≠ "type") := by
    rcases hbase with h1 | h1 | h1 <;> simp [h1]
  simp only [efiStep]
  rw [if_neg hcond]
  by_cases hty : tb = "type"
  · rw [if_pos hty]
    cases sysfsToRangeType (String.mk (trimSpace tc.data)) with
    | some ty => exact ⟨_, rfl⟩
    | none => exact ⟨_, rfl⟩
  · rw [if_neg hty]
    cases hp : parseUint0 (String.mk (trimSpace tc.data)).data with
    | none => exact absurd hp (hparse hty)
    | some v =>
      simp only []
      by_cases hst : tb = "start"
      · rw [if_pos hst]
        exact ⟨_, rfl⟩
      · rw [if_neg hst]
        exact ⟨_, rfl⟩

/-- A list of well-formed triples never makes the walker fail. -/
theorem exceptFoldl_efiStep_ok (ts : List (String × String × String)) :
    ∀ s : EFIState, (∀ t ∈ ts, tripleOK t) →
      ∃ s', exceptFoldl efiStep s ts = .ok s' := by
  induction ts with
  | nil => exact fun s _ => ⟨s, rfl⟩
  | cons t ts ih =>
    intro s hOK
    obtain ⟨s1, hs1⟩ := efiStep_ok (hOK t (List.mem_cons_self t ts)) s
    obtain ⟨s', hs'⟩ := ih s1 (fun t' ht' => hOK t' (List.mem_cons_of_mem t ht'))
    refine ⟨s', ?_⟩
    unfold exceptFoldl
    rw [hs1]
    exact hs'

/-- One walker step preserves a Reserved type recorded for directory d
(provided the step is not a recognized type file for d), and is monotone
in warnings and keys. -/
theorem efiStep_preserves {s s' : EFIState} {t : String × String × String}
    (h : efiStep s t = .ok s') (d : String)
    (hnot : t.1 = d → t.2.1 = "type" →
      sysfsToRangeType (String.mk (trimSpace t.2.2.data)) = none) :
    ((s.ranges d).typ = RangeReserved → (s'.ranges d).typ = RangeReserved) ∧
    (∀ w ∈ s.warnings, w ∈ s'.warnings) ∧
    (∀ k ∈ s.keys, k ∈ s'.keys) := by
  obtain ⟨t1, tb, tc⟩ := t
  simp only at hnot
  simp only [efiStep] at h
  have hkeys : ∀ k ∈ s.keys,
      k ∈ (if t1 ∈ s.keys then s.keys else s.keys ++ [t1]) := by
    intro k hk
    by_cases h1 : t1 ∈ s.keys
    · rw [if_pos h1]; exact hk
    · rw [if_neg h1]; exact List.mem_append_left _ hk
  by_cases hbad : tb ≠ "start" ∧ tb ≠ "end" ∧ tb ≠ "type"
  · rw [if_pos hbad] at h
    cases h
  · rw [if_neg hbad] at h
    by_cases hty : tb = "type"
    · rw [if_pos hty] at h
      cases htab : sysfsToRangeType (String.mk (trimSpace tc.data)) with
      | some ty =>
        rw [htab] at h
        cases h
        refine ⟨?_, fun w hw => hw, hkeys⟩
        intro hR
        by_cases hd : t1 = d
        · subst hd
          have hn := hnot rfl hty
          rw [hn] at htab
          cases htab
        · show (updRanges s.ranges t1 _ d).typ = _
          unfold updRanges
          rw [if_neg (fun hc => hd hc.symm)]
          exact hR
      | none =>
        rw [htab] at h
        cases h
        refine ⟨?_, fun w hw => List.mem_append_left _ hw, hkeys⟩
        intro hR
        show (updRanges s.ranges t1 _ d).typ = _
        unfold updRanges
        by_cases hd : d = t1
        · rw [if_pos hd]
        · rw [if_neg hd]
          exact hR
    · rw [if_neg hty] at h
      cases hp : parseUint0 (String.mk (trimSpace tc.data)).data with
      | none =>
        rw [hp] at h
        cases h
      | some v =>
        rw [hp] at h
        simp only [] at h
        by_cases hst : tb = "start"
        · rw [if_pos hst] at h
          cases h
          refine ⟨?_, fun w hw => hw, hkeys⟩
          intro hR
          show (updRanges s.ranges t1 _ d).typ = _
          unfold updRanges
          by_cases hd : d = t1
          · rw [if_pos hd]
            subst hd
            exact hR
          · rw [if_neg hd]
            exact hR
        · rw [if_neg hst] at h
          cases h
          refine ⟨?_, fun w hw => hw, hkeys⟩
          intro hR
          show (updRanges s.ranges t1 _ d).typ = _
          unfold updRanges
          by_cases hd : d = t1
          · rw [if_pos hd]
            subst hd
            exact hR
          · rw [if_neg hd]
            exact hR

/-- The walker fold preserves a Reserved type recorded for directory d
(when no recognized type file for d remains), and is monotone in
warnings and keys. -/
theorem exceptFoldl_efiStep_preserves (d : String)
    (ts : List (String × String × String)) :
    ∀ s s' : EFIState,
      exceptFoldl efiStep s ts = .ok s' →
      (∀ t ∈ ts, t.1 = d → t.2.1 = "type" →
        sysfsToRangeType (String.mk (trimSpace t.2.2.data)) = none) →
      ((s.ranges d).typ = RangeReserved →
        (s'.ranges d).typ = RangeReserved) ∧
      (∀ w ∈ s.warnings, w ∈ s'.warnings) ∧
      (∀ k ∈ s.keys, k ∈ s'.keys) := by
  induction ts with
  | nil =>
    intro s s' h _
    cases h
    exact ⟨id, fun w hw => hw, fun k hk => hk⟩
  | cons t ts ih =>
    intro s s' h hnot
    unfold exceptFoldl at h
    cases hstep : efiStep s t with
    | error e =>
      rw [hstep] at h
      cases h
    | ok s1 =>
      rw [hstep] at h
      have h1 := efiStep_preserves hstep d (hnot t (List.mem_cons_self t ts))
      have h2 := ih s1 s' h (fun t' ht' => hnot t' (List.mem_cons_of_mem t ht'))
      exact ⟨fun hR => h2.1 (h1.1 hR),
             fun w hw => h2.2.1 w (h1.2.1 w hw),
             fun k hk => h2.2.2 k (h1.2.2 k hk)⟩

/-- A type file with an unrecognized label: the walker step succeeds,
records the directory's type as Reserved and logs a warning; the
directory is in the key set afterwards. -/
theorem efiStep_unknown_type (s : EFIState) (d c : String)
    (hunk : sysfsToRangeType (String.mk (trimSpace c.data)) = none) :
    efiStep s (d, "type", c) = .ok
      ⟨updRanges s.ranges d
         ⟨(s.ranges d).start, (s.ranges d).stop, RangeReserved⟩,
       (if d ∈ s.keys then s.keys else s.keys ++ [d]),
       s.warnings ++ [(d, String.mk (trimSpace c.data))]⟩ := by
  simp only [efiStep]
  rw [if_neg (by simp)]
  simp only [if_true]
  rw [hunk]

/-- Walking well-formed triples among which directory d has exactly one
type file, holding an unrecognized label, succeeds and ends in a state
where d's accumulated type is Reserved, the warning was logged, and d is
among the keys. -/
theorem efiWalk_unknown_type (ts : List (String × String × String))
    (d c : String) :
    ∀ s : EFIState,
      (∀ t ∈ ts, tripleOK t) →
      (d, "type", c) ∈ ts →
      (∀ c', (d, "type", c') ∈ ts → c' = c) →
      sysfsToRangeType (String.mk (trimSpace c.data)) = none →
      ∃ s', exceptFoldl efiStep s ts = .ok s' ∧
        (s'.ranges d).typ = RangeReserved ∧
        (d, String.mk (trimSpace c.data)) ∈ s'.warnings ∧
        d ∈ s'.keys := by
  induction ts with
  | nil =>
    intro s _ hmem _ _
    cases hmem
  | cons t ts ih =>
    intro s hOK hmem huniq hunk
    by_cases hteq : t = (d, "type", c)
    · subst hteq
      have hstep := efiStep_unknown_type s d c hunk
      obtain ⟨s', hs'⟩ := exceptFoldl_efiStep_ok ts _
        (fun t' ht' => hOK t' (List.mem_cons_of_mem _ ht'))
      have hnot : ∀ t' ∈ ts, t'.1 = d → t'.2.1 = "type" →
          sysfsToRangeType (String.mk (trimSpace t'.2.2.data)) = none := by
        intro t' ht' h1 h2
        have ht'' : (d, "type", t'.2.2) ∈ (d, "type", c) :: ts := by
          rw [← h1, ← h2]
          exact List.mem_cons_of_mem _ ht'
        rw [huniq t'.2.2 ht'']
        exact hunk
      have hpres := exceptFoldl_efiStep_preserves d ts _ s' hs' hnot
      refine ⟨s', ?_, ?_, ?_, ?_⟩
      · unfold exceptFoldl
        rw [hstep]
        exact hs'
      · refine hpres.1 ?_
        show (updRanges s.ranges d _ d).typ = _
        unfold updRanges
        rw [if_pos rfl]
      · refine hpres.2.1 _ ?_
        exact List.mem_append_right _ (List.mem_singleton.2 rfl)
      · refine hpres.2.2 _ ?_
        show d ∈ (if d ∈ s.keys then s.keys else s.keys ++ [d])
        by_cases h1 : d ∈ s.keys
        · rw [if_pos h1]
          exact h1
        · rw [if_neg h1]
          exact List.mem_append_right _ (List.mem_singleton.2 rfl)
    · have hmem' : (d, "type", c) ∈ ts := by
        rcases List.mem_cons.1 hmem with he | hm
        · exact absurd he.symm hteq
        · exact hm
      obtain ⟨s1, hs1⟩ := efiStep_ok (hOK t (List.mem_cons_self t ts)) s
      obtain ⟨s', hs', hR, hw, hk⟩ := ih s1
        (fun t' ht' => hOK t' (List.mem_cons_of_mem t ht')) hmem'
        (fun c' hc' => huniq c' (List.mem_cons_of_mem t hc')) hunk
      refine ⟨s', ?_, hR, hw, hk⟩
      unfold exceptFoldl
      rw [hs1]
      exact hs'

/-- C6: in the firmware sysfs adapter, a directory whose type attribute
holds a label outside the lookup table yields a Reserved-typed entry for
that directory -- the entry the walker emits for d, namely efiEntry of
d's accumulated record, is in the returned map and carries type Reserved
-- plus a recorded warning, and the unrecognized label never makes
construction of the map fail (the other attribute files being
well-formed). -/
theorem C6_efi_unknown_label (ts : List (String × String × String))
    (d c : String)
    (hOK : ∀ t ∈ ts, tripleOK t)
    (hmem : (d, "type", c) ∈ ts)
    (huniq : ∀ c', (d, "type", c') ∈ ts → c' = c)
    (hunk : sysfsToRangeType (String.mk (trimSpace c.data)) = none) :
    ∃ s' m ws,
      exceptFoldl efiStep efiInit ts = .ok s' ∧
      memoryMapFromEFI ts = .ok (m, ws) ∧
      (d, String.mk (trimSpace c.data)) ∈ ws ∧
      (s'.ranges d).typ = RangeReserved ∧
      d ∈ s'.keys ∧
      efiEntry (s'.ranges d) ∈ m ∧
      (efiEntry (s'.ranges d)).typ = RangeReserved := by
  obtain ⟨s', hs', hR, hw, hk⟩ :=
    efiWalk_unknown_type ts d c efiInit hOK hmem huniq hunk
  refine ⟨s', sortByStart (s'.keys.map fun k => efiEntry (s'.ranges k)),
          s'.warnings, hs', ?_, hw, hR, hk, ?_, hR⟩
  · unfold memoryMapFromEFI
    rw [hs']
  · unfold sortByStart
    rw [List.mem_insertionSort]
    exact List.mem_map.2 ⟨d, hk, rfl⟩

/-- Witness for C6 at a directory with the unrecognized label Bogus. -/
theorem C6_efi_unknown_label_witness :
    (∀ t ∈ [("d", "start", "0x100"), ("d", "end", "0x1ff"),
            ("d", "type", "Bogus")], tripleOK t) ∧
    (∃ s' m ws,
      exceptFoldl efiStep efiInit
        [("d", "start", "0x100"), ("d", "end", "0x1ff"),
         ("d", "type", "Bogus")] = .ok s' ∧
      memoryMapFromEFI [("d", "start", "0x100"), ("d", "end", "0x1ff"),
        ("d", "type", "Bogus")] = .ok (m, ws) ∧
      ("d", String.mk (trimSpace "Bogus".data)) ∈ ws ∧
      (s'.ranges "d").typ = RangeReserved ∧
      "d" ∈ s'.keys ∧
      efiEntry (s'.ranges "d") ∈ m ∧
      (efiEntry (s'.ranges "d")).typ = RangeReserved) :=
  ⟨by decide,
   C6_efi_unknown_label
     [("d", "start", "0x100"), ("d", "end", "0x1ff"), ("d", "type", "Bogus")]
     "d" "Bogus" (by decide) (by decide)
     (by
       intro c' hc'
       simp at hc'
       exact hc')
     (by decide)⟩

/-
Order-insensitivity of the EFI adapter (claim C9). The walker state is
projected onto its per-directory accumulator map and its key set, and
both projections are shown to be fold-computable; the accumulator fold
commutes on triples with distinct (directory, file) keys.
-/

/-- Resolution of a type label with the Reserved default. -/
def typeResolve (data : String) : RangeType :=
  match sysfsToRangeType data with
  | some ty => ty
  | none => RangeReserved

/-- The update a successful walker step performs on one directory's
accumulator record, by attribute-file name. -/
def fieldUpd (b : String) (data : String) (r : EFIMemRange) : EFIMemRange :=
  if b = "type" then ⟨r.start, r.stop, typeResolve data⟩
  else
    match parseUint0 data.data with
    | some v => if b = "start" then ⟨v, r.stop, r.typ⟩ else ⟨r.start, v, r.typ⟩
    | none => r

/-- The update a successful walker step performs on the accumulator map. -/
def rangesStep (f : String → EFIMemRange) (t : String × String × String) :
    String → EFIMemRange :=
  updRanges f t.1 (fieldUpd t.2.1 (String.mk (trimSpace t.2.2.data)) (f t.1))

/-- The update a successful walker step performs on the key set. -/
def keysStep (ks : List String) (t : String × String × String) :
    List String :=
  if t.1 ∈ ks then ks else ks ++ [t.1]

/-- Field updates for distinct valid attribute-file names commute. -/
theorem fieldUpd_comm (b1 b2 d1 d2 : String) (r : EFIMemRange)
    (hb1 : b1 = "start" ∨ b1 = "end" ∨ b1 = "type")
    (hb2 : b2 = "start" ∨ b2 = "end" ∨ b2 = "type")
    (hne : b1 ≠ b2) :
    fieldUpd b2 d2 (fieldUpd b1 d1 r) = fieldUpd b1 d1 (fieldUpd b2 d2 r) := by
  rcases hb1 with rfl | rfl | rfl <;> rcases hb2 with rfl | rfl | rfl <;>
    first
    | exact absurd rfl hne
    | (unfold fieldUpd
       cases parseUint0 d1.data <;> cases parseUint0 d2.data <;> simp)

/-- Accumulator-map updates for triples with distinct (directory,
attribute-file) keys commute. -/
theorem rangesStep_comm (t u : String × String × String)
    (f : String → EFIMemRange)
    (ht : t.2.1 = "start" ∨ t.2.1 = "end" ∨ t.2.1 = "type")
    (hu : u.2.1 = "start" ∨ u.2.1 = "end" ∨ u.2.1 = "type")
    (hne : (t.1, t.2.1) ≠ (u.1, u.2.1)) :
    rangesStep (rangesStep f t) u = rangesStep (rangesStep f u) t := by
  by_cases hd : t.1 = u.1
  · have hb : t.2.1 ≠ u.2.1 := by
      intro hbe
      exact hne (by rw [hd, hbe])
    funext k
    unfold rangesStep updRanges
    by_cases hk : k = t.1
    · rw [hd] at hk
      simp only [hk, hd, if_pos rfl]
      exact fieldUpd_comm _ _ _ _ (f u.1) ht hu hb
    · simp only [hd] at hk ⊢
      rw [if_neg hk, if_neg hk, if_neg hk, if_neg hk]
  · have hd' : ¬ u.1 = t.1 := fun hc => hd hc.symm
    funext k
    unfold rangesStep updRanges
    by_cases hkt : k = t.1 <;> by_cases hku : k = u.1
    · exact absurd (hkt ▸ hku) hd
    · simp only [hkt, hku]
      simp [hd, hd']
    · simp only [hkt, hku]
      simp [hd, hd']
    · rw [if_neg hku, if_neg hkt, if_neg hkt, if_neg hku]

/-- A left fold is invariant under permutation of the input when the step
function commutes on all pairs of list members. -/
theorem foldl_perm_eq {α β : Type} (f : β → α → β) :
    ∀ {l₁ l₂ : List α}, l₁.Perm l₂ →
      (∀ x ∈ l₁, ∀ y ∈ l₁, ∀ z, f (f z x) y = f (f z y) x) →
      ∀ b, l₁.foldl f b = l₂.foldl f b := by
  intro l₁ l₂ p
  induction p with
  | nil => exact fun _ _ => rfl
  | cons x p ih =>
    intro hcomm b
    simp only [List.foldl_cons]
    exact ih (fun a ha c hc z =>
      hcomm a (List.mem_cons_of_mem x ha) c (List.mem_cons_of_mem x hc) z)
      (f b x)
  | swap x y l =>
    intro hcomm b
    simp only [List.foldl_cons]
    rw [hcomm y (List.mem_cons_self y (x :: l)) x
      (List.mem_cons_of_mem y (List.mem_cons_self x l)) b]
  | trans p1 p2 ih1 ih2 =>
    intro hcomm b
    rw [ih1 hcomm b]
    refine ih2 (fun a ha c hc z => ?_) b
    exact hcomm a (p1.mem_iff.2 ha) c (p1.mem_iff.2 hc) z

/-- A successful walker step acts on the accumulator map as rangesStep
and on the key set as keysStep. -/
theorem efiStep_projections {s s' : EFIState} {t : String × String × String}
    (h : efiStep s t = .ok s') :
    s'.ranges = rangesStep s.ranges t ∧ s'.keys = keysStep s.keys t := by
  obtain ⟨t1, tb, tc⟩ := t
  simp only [efiStep] at h
  by_cases hbad : tb ≠ "start" ∧ tb ≠ "end" ∧ tb ≠ "type"
  · rw [if_pos hbad] at h
    cases h
  · rw [if_neg hbad] at h
    by_cases hty : tb = "type"
    · rw [if_pos hty] at h
      cases htab : sysfsToRangeType (String.mk (trimSpace tc.data)) with
      | some ty =>
        rw [htab] at h
        cases h
        constructor
        · unfold rangesStep fieldUpd typeResolve
          simp [hty, htab]
        · rfl
      | none =>
        rw [htab] at h
        cases h
        constructor
        · unfold rangesStep fieldUpd typeResolve
          simp [hty, htab]
        · rfl
    · rw [if_neg hty] at h
      cases hp : parseUint0 (String.mk (trimSpace tc.data)).data with
      | none =>
        rw [hp] at h
        cases h
      | some v =>
        rw [hp] at h
        simp only [] at h
        by_cases hst : tb = "start"
        · rw [if_pos hst] at h
          cases h
          constructor
          · unfold rangesStep fieldUpd
            simp [hty, hp, hst]
          · rfl
        · rw [if_neg hst] at h
          cases h
          constructor
          · unfold rangesStep fieldUpd
            simp [hty, hp, hst]
          · rfl

/-- The walker fold projects onto the rangesStep and keysStep folds. -/
theorem exceptFoldl_projections (ts : List (String × String × String)) :
    ∀ s s' : EFIState, exceptFoldl efiStep s ts = .ok s' →
      s'.ranges = ts.foldl rangesStep s.ranges ∧
      s'.keys = ts.foldl keysStep s.keys := by
  induction ts with
  | nil =>
    intro s s' h
    cases h
    exact ⟨rfl, rfl⟩
  | cons t ts ih =>
    intro s s' h
    unfold exceptFoldl at h
    cases hstep : efiStep s t with
    | error e =>
      rw [hstep] at h
      cases h
    | ok s1 =>
      rw [hstep] at h
      obtain ⟨hr1, hk1⟩ := efiStep_projections hstep
      obtain ⟨hr2, hk2⟩ := ih s1 s' h
      rw [hr1] at hr2
      rw [hk1] at hk2
      exact ⟨hr2, hk2⟩

/-- Membership in the key-set fold: the keys are the initial ones plus
the directories of the processed triples. -/
theorem foldl_keysStep_mem (ts : List (String × String × String)) :
    ∀ (ks : List String) (k : String),
      k ∈ ts.foldl keysStep ks ↔ k ∈ ks ∨ ∃ t ∈ ts, t.1 = k := by
  induction ts with
  | nil => simp
  | cons t ts ih =>
    intro ks k
    simp only [List.foldl_cons]
    rw [ih]
    have hks : k ∈ keysStep ks t ↔ k ∈ ks ∨ t.1 = k := by
      unfold keysStep
      by_cases h1 : t.1 ∈ ks
      · rw [if_pos h1]
        constructor
        · exact Or.inl
        · rintro (hk | rfl)
          · exact hk
          · exact h1
      · rw [if_neg h1]
        simp [List.mem_append, eq_comm]
    rw [hks]
    simp only [List.mem_cons]
    constructor
    · rintro ((hk | he) | ⟨t', ht', rfl⟩)
      · exact Or.inl hk
      · exact Or.inr ⟨t, Or.inl rfl, he⟩
      · exact Or.inr ⟨t', Or.inr ht', rfl⟩
    · rintro (hk | ⟨t', (rfl | ht'), rfl⟩)
      · exact Or.inl (Or.inl hk)
      · exact Or.inl (Or.inr rfl)
      · exact Or.inr ⟨t', ht', rfl⟩

/-- The key-set fold keeps the key list duplicate-free. -/
theorem foldl_keysStep_nodup (ts : List (String × String × String)) :
    ∀ ks : List String, ks.Nodup → (ts.foldl keysStep ks).Nodup := by
  induction ts with
  | nil => exact fun ks h => h
  | cons t ts ih =>
    intro ks h
    refine ih _ ?_
    unfold keysStep
    by_cases h1 : t.1 ∈ ks
    · rw [if_pos h1]
      exact h
    · rw [if_neg h1]
      refine List.Nodup.append h (List.nodup_singleton _) ?_
      intro a ha hb
      rw [List.mem_singleton] at hb
      subst hb
      exact h1 ha

/-- Permuted triple lists produce permuted key sets. -/
theorem foldl_keysStep_perm {ts1 ts2 : List (String × String × String)}
    (p : ts1.Perm ts2) :
    (ts1.foldl keysStep []).Perm (ts2.foldl keysStep []) := by
  rw [List.perm_ext_iff_of_nodup (foldl_keysStep_nodup ts1 [] List.nodup_nil)
    (foldl_keysStep_nodup ts2 [] List.nodup_nil)]
  intro a
  rw [foldl_keysStep_mem, foldl_keysStep_mem]
  simp only [List.not_mem_nil, false_or]
  constructor
  · rintro ⟨t, ht, rfl⟩
    exact ⟨t, p.mem_iff.1 ht, rfl⟩
  · rintro ⟨t, ht, rfl⟩
    exact ⟨t, p.mem_iff.2 ht, rfl⟩

/-- Sorted ascending plus pairwise distinct starts gives strictly sorted. -/
theorem sorted_lt_of_le_ne {l : MemoryMap} (hs : List.Sorted leStart l)
    (hne : l.Pairwise fun a b => a.range.start ≠ b.range.start) :
    List.Sorted ltStart l :=
  (hs.and hne).imp fun h => Nat.lt_of_le_of_ne h.1 h.2

/-- C9 counterexample: the claim fails on the code; two directories with
the same start address and different types are emitted in enumeration-
dependent order (Go map iteration plus a non-stable sort on equal keys),
so the two presentations of the same triples return different maps. -/
theorem C9_counterexample :
    (([("A", "start", "0"), ("A", "end", "0"), ("A", "type", "System RAM"),
       ("B", "start", "0"), ("B", "end", "0"), ("B", "type", "Reserved")] :
      List (String × String × String)).Perm
      [("B", "start", "0"), ("B", "end", "0"), ("B", "type", "Reserved"),
       ("A", "start", "0"), ("A", "end", "0"),
       ("A", "type", "System RAM")]) ∧
    memoryMapFromEFI
      [("A", "start", "0"), ("A", "end", "0"), ("A", "type", "System RAM"),
       ("B", "start", "0"), ("B", "end", "0"), ("B", "type", "Reserved")] ≠
    memoryMapFromEFI
      [("B", "start", "0"), ("B", "end", "0"), ("B", "type", "Reserved"),
       ("A", "start", "0"), ("A", "end", "0"),
       ("A", "type", "System RAM")] := by
  constructor
  · decide
  · decide

/-- C9 amended: on well-formed enumerations with pairwise distinct
(directory, attribute-file) keys, two presentations of the same triples
both succeed and return the same multiset of entries; the returned maps
are moreover identical whenever the entries' start addresses are pairwise
distinct (with duplicated starts, only the relative order of equal-start
entries may differ between runs). -/
theorem C9_efi_order_insensitive (ts1 ts2 : List (String × String × String))
    (hperm : ts1.Perm ts2)
    (hOK : ∀ t ∈ ts1, tripleOK t)
    (hkeys : ∀ x ∈ ts1, ∀ y ∈ ts1, x ≠ y → (x.1, x.2.1) ≠ (y.1, y.2.1)) :
    ∃ m1 ws1 m2 ws2,
      memoryMapFromEFI ts1 = .ok (m1, ws1) ∧
      memoryMapFromEFI ts2 = .ok (m2, ws2) ∧
      m1.Perm m2 ∧
      (m1.Pairwise (fun a b => a.range.start ≠ b.range.start) → m1 = m2) := by
  obtain ⟨s1, hs1⟩ := exceptFoldl_efiStep_ok ts1 efiInit hOK
  obtain ⟨s2, hs2⟩ := exceptFoldl_efiStep_ok ts2 efiInit
    (fun t ht => hOK t (hperm.mem_iff.2 ht))
  obtain ⟨hr1, hk1⟩ := exceptFoldl_projections ts1 efiInit s1 hs1
  obtain ⟨hr2, hk2⟩ := exceptFoldl_projections ts2 efiInit s2 hs2
  have hre : s1.ranges = s2.ranges := by
    rw [hr1, hr2]
    refine foldl_perm_eq rangesStep hperm ?_ efiInit.ranges
    intro x hx y hy z
    by_cases hxy : x = y
    · subst hxy
      rfl
    · exact rangesStep_comm x y z (hOK x hx).1 (hOK y hy).1 (hkeys x hx y hy hxy)
  have hkp : s1.keys.Perm s2.keys := by
    rw [hk1, hk2]
    exact foldl_keysStep_perm hperm
  have hpre : (s1.keys.map fun d => efiEntry (s1.ranges d)).Perm
      (s2.keys.map fun d => efiEntry (s2.ranges d)) := by
    rw [hre]
    exact hkp.map _
  have hmm : (sortByStart (s1.keys.map fun d => efiEntry (s1.ranges d))).Perm
      (sortByStart (s2.keys.map fun d => efiEntry (s2.ranges d))) :=
    ((List.perm_insertionSort leStart _).trans hpre).trans
      (List.perm_insertionSort leStart _).symm
  refine ⟨sortByStart (s1.keys.map fun d => efiEntry (s1.ranges d)),
    s1.warnings,
    sortByStart (s2.keys.map fun d => efiEntry (s2.ranges d)),
    s2.warnings, ?_, ?_, hmm, ?_⟩
  · unfold memoryMapFromEFI
    rw [hs1]
  · unfold memoryMapFromEFI
    rw [hs2]
  · intro hne
    refine List.eq_of_perm_of_sorted (r := ltStart) hmm
      (sorted_lt_of_le_ne (List.sorted_insertionSort leStart _) hne) ?_
    refine sorted_lt_of_le_ne (List.sorted_insertionSort leStart _) ?_
    exact (List.Perm.pairwise_iff (fun {x y} h => h.symm) hmm).1 hne

/-- Witness for C9 amended at two orders of a two-directory enumeration
with distinct start addresses. -/
theorem C9_efi_order_insensitive_witness :
    (([("A", "start", "0"), ("A", "end", "0"), ("A", "type", "System RAM"),
       ("B", "start", "0x100"), ("B", "end", "0x1ff"),
       ("B", "type", "Reserved")] :
      List (String × String × String)).Perm
      [("B", "start", "0x100"), ("B", "end", "0x1ff"), ("B", "type", "Reserved"),
       ("A", "start", "0"), ("A", "end", "0"),
       ("A", "type", "System RAM")]) ∧
    (∃ m1 ws1 m2 ws2,
      memoryMapFromEFI
        [("A", "start", "0"), ("A", "end", "0"), ("A", "type", "System RAM"),
         ("B", "start", "0x100"), ("B", "end", "0x1ff"),
         ("B", "type", "Reserved")] = .ok (m1, ws1) ∧
      memoryMapFromEFI
        [("B", "start", "0x100"), ("B", "end", "0x1ff"),
         ("B", "type", "Reserved"),
         ("A", "start", "0"), ("A", "end", "0"),
         ("A", "type", "System RAM")] = .ok (m2, ws2) ∧
      m1.Perm m2 ∧
      (m1.Pairwise (fun a b => a.range.start ≠ b.range.start) → m1 = m2)) :=
  ⟨by decide,
   C9_efi_order_insensitive
     [("A", "start", "0"), ("A", "end", "0"), ("A", "type", "System RAM"),
      ("B", "start", "0x100"), ("B", "end", "0x1ff"), ("B", "type", "Reserved")]
     [("B", "start", "0x100"), ("B", "end", "0x1ff"), ("B", "type", "Reserved"),
      ("A", "start", "0"), ("A", "end", "0"), ("A", "type", "System RAM")]
     (by decide) (by decide)
     (by
       intro x hx y hy hxy
       fin_cases hx <;> fin_cases hy <;> simp_all)⟩
